import Mathlib

/-!
Verification of the "API Caller" workflow graph execution engine:
cycle detection (`detectCycles`), topological scheduling (`topologicalSort`),
variable interpolation (`interpolateVariables`), node executors and the
execution orchestrator (`executeGraph`).

The definitions below are a shallow embedding of the TypeScript sources
(`utils/execution.ts`, `utils/interpolation.ts`, `utils/nodes.ts`,
`types.ts`).  JavaScript records keyed by strings are modelled as
association lists in insertion order; `Record<string, number>` maps whose
missing keys behave like `undefined`/`NaN` are modelled as
`String → Option Int` with `none` for missing-or-NaN entries.  Loops are
modelled with an explicit fuel argument large enough to never run out
(proved below), keeping all definitions executable by kernel reduction.
External effects (the HTTP client, the JavaScript expression evaluator)
are parameters: the orchestrator and executors are verified for every
behaviour of those oracles.
-/

/-- `type NodeStatus = 'idle' | 'running' | 'success' | 'error'` from `types.ts`. -/
inductive NodeStatus where
  | idle
  | running
  | success
  | error
deriving DecidableEq, Repr

/-- HTTP method union from `ApiNodeData`. -/
inductive HttpMethod where
  | GET
  | POST
  | PUT
  | DELETE
  | PATCH
deriving DecidableEq, Repr

/-- The node-kind discriminator `'api' | 'transform' | 'output'`. -/
inductive NodeKind where
  | api
  | transform
  | output
deriving DecidableEq, Repr

/-!
JavaScript runtime values as far as the engine manipulates them:
`undefined`, `null`, booleans, numbers (integral), strings, arrays and
plain objects (own enumerable string-keyed fields, in insertion order).
Functions and floats never arise in the verified paths.  Arrays and
object field lists are mutual inductives (rather than nested `List`s) so
that all operations below are structurally recursive and kernel-reducible.
-/
mutual
/-- A JavaScript value. -/
inductive Value where
  | undef
  | null
  | bool (b : Bool)
  | num (n : Int)
  | str (s : String)
  | arr (elems : ValueList)
  | obj (fields : ValueFields)

/-- Elements of a JavaScript array value. -/
inductive ValueList where
  | nil
  | cons (head : Value) (tail : ValueList)

/-- Fields of a JavaScript object value, in insertion order. -/
inductive ValueFields where
  | nil
  | cons (key : String) (val : Value) (tail : ValueFields)
end

/-- Number of elements of a JavaScript array value. -/
def valueListLength : ValueList → Nat
  | .nil => 0
  | .cons _ t => valueListLength t + 1

/-- Element of a JavaScript array value at an index. -/
def valueListGet? : ValueList → Nat → Option Value
  | .nil, _ => none
  | .cons v _, 0 => some v
  | .cons _ t, i + 1 => valueListGet? t i

/-- Own-property read on a JavaScript object value (first binding wins). -/
def fieldsGet? : ValueFields → String → Option Value
  | .nil, _ => none
  | .cons k v rest, key => if k = key then some v else fieldsGet? rest key

/-- Build an object field list from a Lean association list. -/
def fieldsOfList : List (String × Value) → ValueFields
  | [] => .nil
  | (k, v) :: rest => .cons k v (fieldsOfList rest)

/-- `ApiNodeData` from `types.ts` (headers in insertion order). -/
structure ApiNodeData where
  method : HttpMethod
  url : String
  headers : List (String × String)
  body : String
  useCorsProxy : Bool
deriving DecidableEq, Repr

/-- `TransformNodeData` from `types.ts`. -/
structure TransformNodeData where
  expression : String
deriving DecidableEq, Repr

/-- The union `ApiNodeData | TransformNodeData | OutputNodeData`
(`OutputNodeData` has no fields). -/
inductive NodePayload where
  | api (d : ApiNodeData)
  | transform (d : TransformNodeData)
  | output
deriving DecidableEq, Repr

/-- `NodeData` from `types.ts`, restricted to the fields the engine reads
(`id`, `type`, `data`); the UI-only fields (`position`, `status`, `output`,
`error`, `logs`) are never consulted by the execution code. -/
structure NodeData where
  id : String
  type : NodeKind
  data : NodePayload
deriving DecidableEq, Repr

/-- `Edge` from `types.ts`, restricted to the fields the engine reads
(`id`, `source`, `target`); the optional handles are ignored by execution. -/
structure Edge where
  id : String
  source : String
  target : String
deriving DecidableEq, Repr

/-- `Graph` from `types.ts`. -/
structure Graph where
  nodes : List NodeData
  edges : List Edge
deriving DecidableEq, Repr

/-- The node ids of a graph, in node order. -/
def Graph.ids (g : Graph) : List String :=
  g.nodes.map NodeData.id

/-- The edge relation of a graph: `a` steps to `b` when some edge goes
from `a` to `b`. -/
def EdgeRel (g : Graph) (a b : String) : Prop :=
  ∃ e ∈ g.edges, e.source = a ∧ e.target = b

/-- A graph is acyclic when no node reaches itself along one or more edges. -/
def Acyclic (g : Graph) : Prop :=
  ∀ x, ¬ Relation.TransGen (EdgeRel g) x x

/-- The data-model invariants of §3 of the spec: node ids are unique and
every edge endpoint references an existing node id. -/
def WellFormed (g : Graph) : Prop :=
  g.ids.Nodup ∧ ∀ e ∈ g.edges, e.source ∈ g.ids ∧ e.target ∈ g.ids

instance (g : Graph) : Decidable (WellFormed g) := by
  unfold WellFormed
  infer_instance

/-! ### Cycle detection (`detectCycles`, `execution.ts` lines 5-42) -/

/-- The mutable state of the DFS in `detectCycles`: the `visited` set, the
`recursionStack` set and the accumulated `cycles` array.  Both sets are
kept as lists in insertion order; the code only ever queries membership. -/
structure DfsState where
  visited : List String
  recStack : List String
  cycles : List String
deriving DecidableEq, Repr

/-- `path.slice(path.indexOf(nodeId))` with JavaScript semantics: when
`nodeId` is absent, `indexOf` yields `-1` and `slice(-1)` keeps only the
last element (nothing for an empty path). -/
def jsSliceFromIndexOf (path : List String) (nodeId : String) : List String :=
  if path.contains nodeId then path.drop (path.indexOf nodeId)
  else path.drop (path.length - 1)

/-- The inner recursive `dfs(nodeId, path)` of `detectCycles`.  The fuel
argument only bounds the recursion depth; `detectCycles` passes enough
fuel that the `0` case is unreachable (`dfs_fuel` below). -/
def dfs (g : Graph) : Nat → String → List String → DfsState → Bool × DfsState
  | 0, _, _, s => (false, s)
  | fuel + 1, nodeId, path, s =>
    if s.recStack.contains nodeId then
      (true, { s with cycles := s.cycles ++ jsSliceFromIndexOf path nodeId })
    else if s.visited.contains nodeId then
      (false, s)
    else
      let s1 : DfsState :=
        { s with visited := s.visited ++ [nodeId], recStack := s.recStack ++ [nodeId] }
      let outgoing := g.edges.filter (fun e => e.source == nodeId)
      let r := outgoing.foldl
        (fun acc e => if acc.1 then acc else dfs g fuel e.target (path ++ [nodeId]) acc.2)
        (false, s1)
      if r.1 then (true, r.2)
      else (false, { r.2 with recStack := r.2.recStack.erase nodeId })

/-- Every id the DFS can ever be called on: the graph's node ids (outer
loop) and the edge targets (recursive calls). -/
def idPool (g : Graph) : List String :=
  g.nodes.map NodeData.id ++ g.edges.map Edge.target

/-- Fuel that can never be exhausted: one more than the number of ids the
DFS could possibly mark visited. -/
def dfsFuel (g : Graph) : Nat :=
  (idPool g).length + 1

/-- `detectCycles(graph)` from `execution.ts`: run the DFS from every
unvisited node and return the accumulated cycle ids. -/
def detectCycles (g : Graph) : List String :=
  (g.nodes.foldl
    (fun (s : DfsState) (n : NodeData) =>
      if s.visited.contains n.id then s else (dfs g (dfsFuel g) n.id [] s).2)
    ⟨[], [], []⟩).cycles

/-! ### Topological sort (`topologicalSort`, `execution.ts` lines 44-89) -/

/-- `inDegree[k]++` on a JavaScript record: a missing (or already NaN) key
stays "bad" (`undefined++` is `NaN`). -/
def incKey (f : String → Option Int) (k : String) : String → Option Int :=
  fun x => if x = k then (f k).map (· + 1) else f x

/-- `inDegree[k]--` with the same missing-key behaviour. -/
def decKey (f : String → Option Int) (k : String) : String → Option Int :=
  fun x => if x = k then (f k).map (· - 1) else f x

/-- The `inDegree` record after the two initialisation loops: node ids
start at `0`, then every edge increments its target. -/
def buildInDegree (g : Graph) : String → Option Int :=
  g.edges.foldl (fun f e => incKey f e.target)
    (g.nodes.foldl (fun f n => fun x => if x = n.id then some 0 else f x) (fun _ => none))

/-- The `adjacencyList` record: node ids start at `[]`, then every edge
appends its target to its source's list.  (For an edge whose source is not
a node id the original code faults; such graphs are excluded by
`WellFormed`, and the embedding leaves those entries empty.) -/
def buildAdjacency (g : Graph) : String → List String :=
  g.edges.foldl (fun f e => fun x => if x = e.source then f e.source ++ [e.target] else f x)
    (fun _ => [])

/-- The seed queue: node ids whose in-degree is `0`, in node order. -/
def initialQueue (g : Graph) : List String :=
  (g.nodes.filter (fun n => buildInDegree g n.id == some 0)).map NodeData.id

/-- State of Kahn's `while` loop. -/
structure KahnState where
  queue : List String
  inDeg : String → Option Int
  result : List String

/-- The inner `for (const neighbor of adjacencyList[current])` loop:
decrement each neighbour's in-degree and enqueue it when it reaches
exactly `0`. -/
def processNeighbors :
    List String → (String → Option Int) → List String → (String → Option Int) × List String
  | [], inDeg, queue => (inDeg, queue)
  | t :: rest, inDeg, queue =>
    let inDeg' := decKey inDeg t
    processNeighbors rest inDeg' (if inDeg' t = some 0 then queue ++ [t] else queue)

/-- The `while (queue.length > 0)` loop of Kahn's algorithm.  Fuel bounds
the number of iterations; `topologicalSort` passes enough that the loop
always drains the queue (`kahnLoop_complete` below). -/
def kahnLoop (adj : String → List String) : Nat → KahnState → KahnState
  | 0, s => s
  | fuel + 1, s =>
    match s.queue with
    | [] => s
    | current :: rest =>
      let p := processNeighbors (adj current) s.inDeg rest
      kahnLoop adj fuel { queue := p.2, inDeg := p.1, result := s.result ++ [current] }

/-- Iteration fuel that dominates the loop measure for every graph. -/
def kahnFuel (g : Graph) : Nat :=
  g.nodes.length + g.edges.length * g.edges.length + 1

/-- `topologicalSort(graph)` from `execution.ts`: Kahn's algorithm; throws
`'Graph contains cycles'` when the result misses nodes.  The thrown
exception is modelled as `Except.error`. -/
def topologicalSort (g : Graph) : Except String (List String) :=
  let final := kahnLoop (buildAdjacency g) (kahnFuel g)
    { queue := initialQueue g, inDeg := buildInDegree g, result := [] }
  if final.result.length = g.nodes.length then Except.ok final.result
  else Except.error "Graph contains cycles"

/-! ### JavaScript record and value helpers -/

/-- Read a string-keyed record field (first binding wins; JavaScript
objects never hold duplicate keys). -/
def getKey? (l : List (String × α)) (k : String) : Option α :=
  match l with
  | [] => none
  | (k', v) :: rest => if k' = k then some v else getKey? rest k

/-- Write a string-keyed record field: overwriting keeps the key's
position, a fresh key is appended (JavaScript insertion order). -/
def setKey (l : List (String × α)) (k : String) (v : α) : List (String × α) :=
  match l with
  | [] => [(k, v)]
  | (k', v') :: rest => if k' = k then (k', v) :: rest else (k', v') :: setKey rest k v

/-- JavaScript truthiness of the modelled values. -/
def isTruthy : Value → Bool
  | .undef => false
  | .null => false
  | .bool b => b
  | .num n => n != 0
  | .str s => s != ""
  | .arr _ => true
  | .obj _ => true

/-- `typeof v === 'object'` (`null`, arrays and objects). -/
def isObjectType : Value → Bool
  | .null => true
  | .arr _ => true
  | .obj _ => true
  | _ => false

/-- ASCII whitespace as trimmed by `String.prototype.trim`. -/
def isJsWhitespace (c : Char) : Bool :=
  c == ' ' || c == Char.ofNat 9 || c == Char.ofNat 10 ||
    c == Char.ofNat 13 || c == Char.ofNat 12 || c == Char.ofNat 11

/-- `path.trim()`. -/
def jsTrim (s : String) : String :=
  String.mk (((s.data.dropWhile isJsWhitespace).reverse.dropWhile isJsWhitespace).reverse)

/-- `path.split('.')` over the remaining characters, accumulating the
current segment in reverse. -/
def splitOnDotsAux : List Char → List Char → List String
  | [], acc => [String.mk acc.reverse]
  | c :: cs, acc =>
    if c == '.' then String.mk acc.reverse :: splitOnDotsAux cs []
    else splitOnDotsAux cs (c :: acc)

/-- `path.split('.')` (empty segments included, as in JavaScript). -/
def jsSplitDot (s : String) : List String :=
  splitOnDotsAux s.data []

/-- The canonical decimal reading of a string, `none` when any character
is not a digit or the string is empty. -/
def decNat? (cs : List Char) : Option Nat :=
  if cs.isEmpty then none
  else cs.foldl
    (fun acc c =>
      match acc with
      | none => none
      | some n => if c.isDigit then some (n * 10 + (c.toNat - 48)) else none)
    (some 0)

/-- Character-list prefix test (used for the `startsWith` check). -/
def startsWithChars : List Char → List Char → Bool
  | _, [] => true
  | [], _ :: _ => false
  | c :: cs, p :: ps => c == p && startsWithChars cs ps

/-- `url.startsWith(p)`. -/
def startsWithStr (s p : String) : Bool :=
  startsWithChars s.data p.data

/-- `key in current` together with `current[key]` for own properties:
object fields by name, array elements by canonical decimal index plus
`length`.  (The prototype chain and non-canonical index strings are not
modelled; no claim depends on them.) -/
def getProp : Value → String → Option Value
  | .obj fields, k => fieldsGet? fields k
  | .arr elems, k =>
    if k = "length" then some (.num (valueListLength elems))
    else match decNat? k.data with
      | some i => valueListGet? elems i
      | none => none
  | _, _ => none

/-- The literal characters `{` and `}`. -/
def lbrace : Char := Char.ofNat 123

def rbrace : Char := Char.ofNat 125

mutual
/-- `String(value)` for the modelled values, with JavaScript array/object
rendering: arrays are `join(",")` with `null`/`undefined` elements
rendered empty, objects render as `"[object Object]"`. -/
def valueToString : Value → String
  | .undef => "undefined"
  | .null => "null"
  | .bool b => cond b "true" "false"
  | .num n => toString n
  | .str s => s
  | .obj _ => "[object Object]"
  | .arr elems => valueListToString elems

/-- `Array.prototype.join(",")` over the element renderings. -/
def valueListToString : ValueList → String
  | .nil => ""
  | .cons v rest =>
    (match v with
     | .undef => ""
     | .null => ""
     | _ => valueToString v) ++
    (match rest with
     | .nil => ""
     | _ => "," ++ valueListToString rest)
end

/-! ### Variable interpolation (`interpolation.ts`) -/

/-- `getNestedValue(obj, path)` from `interpolation.ts`: split the path on
dots and walk properties left to right; any step on a non-object or a
missing key yields `undefined`. -/
def getNestedValue (obj : Value) (path : String) : Value :=
  (jsSplitDot path).foldl
    (fun current key =>
      if isTruthy current && isObjectType current then (getProp current key).getD Value.undef
      else Value.undef)
    obj

/-- One attempt of the regex `\x7b\x7b([^\x7d]+)\x7d\x7d` at the head of
the character list: two `{`, a nonempty run of non-`}` characters (the
captured path), then two `}`.  Returns the captured path and the rest. -/
def tryToken (cs : List Char) : Option (String × List Char) :=
  match cs with
  | c1 :: c2 :: rest =>
    if c1 = lbrace && c2 = lbrace then
      let tok := rest.takeWhile (fun c => c != rbrace)
      let rest1 := rest.dropWhile (fun c => c != rbrace)
      if tok.isEmpty then none
      else
        match rest1 with
        | d1 :: d2 :: rest2 =>
          if d1 = rbrace && d2 = rbrace then some (String.mk tok, rest2) else none
        | _ => none
    else none
  | _ => none

/-- `template.replace(regex, replacer)`: scan left to right, replacing
each non-overlapping match and advancing one character on failure.  The
fuel (the template length) dominates the number of steps. -/
def interpAux (repl : String → String) : Nat → List Char → List Char
  | 0, _ => []
  | _ + 1, [] => []
  | fuel + 1, c :: cs =>
    match tryToken (c :: cs) with
    | some (tok, rest) => (repl tok).data ++ interpAux repl fuel rest
    | none => c :: interpAux repl fuel cs

/-- The synthetic lookup object of `interpolateVariables`: every output is
bound to `node<i>` in iteration order, and — only when it is truthy
(`if (firstOutput)`) — the first output is also bound to `data`. -/
def buildLookup (nodeOutputs : List (String × Value)) : List (String × Value) :=
  let vals := nodeOutputs.map Prod.snd
  let allData := vals.enum.map (fun p => ("node" ++ toString p.1, p.2))
  match vals with
  | [] => allData
  | first :: _ => if isTruthy first then allData ++ [("data", first)] else allData

/-- The replacer callback of `interpolateVariables`: resolve the trimmed
path against the lookup object; stringify on success, reproduce the
original `\x7b\x7bpath\x7d\x7d` token on `undefined`. -/
def interpReplace (nodeOutputs : List (String × Value)) (path : String) : String :=
  let value := getNestedValue (Value.obj (fieldsOfList (buildLookup nodeOutputs))) (jsTrim path)
  match value with
  | .undef => "\x7b\x7b" ++ path ++ "\x7d\x7d"
  | v => valueToString v

/-- `interpolateVariables(template, nodeOutputs)` from `interpolation.ts`. -/
def interpolateVariables (template : String) (nodeOutputs : List (String × Value)) : String :=
  String.mk (interpAux (interpReplace nodeOutputs) template.data.length template.data)

/-- Modelled from the spec (§4.3): the lookup object described by the
claim, in which "the first available output is also bound to `data`" with
no condition.  Differs from `buildLookup` exactly when the first output is
falsy. -/
def specLookupFields (nodeOutputs : List (String × Value)) : List (String × Value) :=
  (nodeOutputs.map Prod.snd).enum.map (fun p => ("node" ++ toString p.1, p.2)) ++
    (match (nodeOutputs.map Prod.snd).head? with
     | some v => [("data", v)]
     | none => [])

/-- Modelled from the spec: interpolation as the claim states it —
each token's trimmed dot-path resolved against `specLookupFields`,
stringified on success and left verbatim on failure. -/
def specInterpolate (template : String) (nodeOutputs : List (String × Value)) : String :=
  String.mk (interpAux
    (fun path =>
      match getNestedValue (Value.obj (fieldsOfList (specLookupFields nodeOutputs))) (jsTrim path) with
      | .undef => "\x7b\x7b" ++ path ++ "\x7d\x7d"
      | v => valueToString v)
    template.data.length template.data)

/-- The claim's lookup object amended by the truthiness condition the
implementation actually applies to the `data` binding. -/
def specLookupFieldsAmended (nodeOutputs : List (String × Value)) : List (String × Value) :=
  (nodeOutputs.map Prod.snd).enum.map (fun p => ("node" ++ toString p.1, p.2)) ++
    (match (nodeOutputs.map Prod.snd).head? with
     | some v => if isTruthy v then [("data", v)] else []
     | none => [])

/-- The amended spec-side interpolation: `data` is bound only when the
first output is truthy. -/
def specInterpolateAmended (template : String) (nodeOutputs : List (String × Value)) : String :=
  String.mk (interpAux
    (fun path =>
      match getNestedValue (Value.obj (fieldsOfList (specLookupFieldsAmended nodeOutputs))) (jsTrim path) with
      | .undef => "\x7b\x7b" ++ path ++ "\x7d\x7d"
      | v => valueToString v)
    template.data.length template.data)

/-! ### Node executors (`nodes.ts`) and the orchestrator (`execution.ts` lines 91-182) -/

/-- `ExecutionContext` from `types.ts`: JavaScript records in insertion
order. -/
structure ExecutionContext where
  nodeOutputs : List (String × Value)
  nodeErrors : List (String × String)
  nodeStatuses : List (String × NodeStatus)

/-- Log severities from `types.ts`. -/
inductive LogLevel where
  | info
  | warn
  | error
deriving DecidableEq, Repr

/-- The observable callbacks of a run: each `onNodeUpdate` invocation and
each `onLog` invocation (sans the caller-assigned id/timestamp), in order. -/
inductive Event where
  | update (nodeId : String) (status : NodeStatus) (output : Option Value) (error : Option String)
  | log (level : LogLevel) (message : String)

/-- The request handed by `executeApiNode` to the HTTP client. -/
structure HttpRequest where
  method : HttpMethod
  url : String
  headers : List (String × String)
  data : Option String
  timeout : Nat

/-- A transport-level HTTP response (any status code, including 4xx/5xx:
with `validateStatus: () => true` the client resolves for all of them and
rejects only on network-level failures, which are the `Except.error` side
of the oracle). -/
structure HttpResponse where
  status : Int
  statusText : String
  headers : List (String × String)
  data : Value

/-- Rendering of the HTTP method for log messages. -/
def methodToString : HttpMethod → String
  | .GET => "GET"
  | .POST => "POST"
  | .PUT => "PUT"
  | .DELETE => "DELETE"
  | .PATCH => "PATCH"

/-- Rendering of the node kind for log messages. -/
def kindToString : NodeKind → String
  | .api => "api"
  | .transform => "transform"
  | .output => "output"

/-- The request construction of `executeApiNode`: interpolate the url,
each header value and the body against `context.nodeOutputs`; an empty
(falsy) body becomes `undefined`; route through the CORS proxy prefix
when requested and the url is not local; fixed 30s timeout. -/
def apiRequest (d : ApiNodeData) (ctx : ExecutionContext) : HttpRequest :=
  let interpolatedUrl := interpolateVariables d.url ctx.nodeOutputs
  let interpolatedHeaders :=
    d.headers.map (fun p => (p.1, interpolateVariables p.2 ctx.nodeOutputs))
  let interpolatedBody :=
    if d.body = "" then none else some (interpolateVariables d.body ctx.nodeOutputs)
  let finalUrl :=
    if d.useCorsProxy && !(startsWithStr interpolatedUrl "http://localhost") then
      "https://cors-anywhere.herokuapp.com/" ++ interpolatedUrl
    else interpolatedUrl
  { method := d.method, url := finalUrl, headers := interpolatedHeaders,
    data := interpolatedBody, timeout := 30000 }

/-- `executeApiNode(node, context, onLog)` from `nodes.ts`, with the HTTP
client (`axios`) as an oracle.  On a received response (any status) it
returns the `{status, statusText, headers, data}` object; a transport
failure is rethrown.  A node whose payload is not `ApiNodeData` faults
before logging (the original code dereferences `undefined`). -/
def executeApiNode (httpFn : HttpRequest → Except String HttpResponse)
    (node : NodeData) (ctx : ExecutionContext) : Except String Value × List Event :=
  match node.data with
  | .api d =>
    let req := apiRequest d ctx
    let ev1 := Event.log .info
      ("Making " ++ methodToString d.method ++ " request to: " ++
        interpolateVariables d.url ctx.nodeOutputs)
    match httpFn req with
    | .ok resp =>
      (Except.ok (Value.obj (fieldsOfList
          [("status", .num resp.status),
           ("statusText", .str resp.statusText),
           ("headers", .obj (fieldsOfList (resp.headers.map (fun p => (p.1, Value.str p.2))))),
           ("data", resp.data)])),
       [ev1, Event.log .info ("API call completed with status: " ++ toString resp.status)])
    | .error e =>
      (Except.error e, [ev1, Event.log .error ("API call failed: " ++ e)])
  | _ => (Except.error "TypeError: undefined node configuration", [])

/-- The input-resolution policy `getNodeInputData(nodeId, context)` from
`nodes.ts`: the first entry of `Object.values(context.nodeOutputs)`, or
`null` when there are none — regardless of `nodeId` and of the edges. -/
def getNodeInputData (nodeId : String) (ctx : ExecutionContext) : Value :=
  let upstreamOutputs := ctx.nodeOutputs.map Prod.snd
  match upstreamOutputs with
  | [] => Value.null
  | v :: _ => v

/-- `executeTransformNode(node, context, onLog)` from `nodes.ts`, with
`safeEval` as an oracle over (expression, input data). -/
def executeTransformNode (evalFn : String → Value → Except String Value)
    (node : NodeData) (ctx : ExecutionContext) : Except String Value × List Event :=
  match node.data with
  | .transform d =>
    let inputData := getNodeInputData node.id ctx
    let ev1 := Event.log .info "Executing transform expression"
    match evalFn d.expression inputData with
    | .ok result =>
      (Except.ok result, [ev1, Event.log .info "Transform completed successfully"])
    | .error e =>
      (Except.error e, [ev1, Event.log .error ("Transform failed: " ++ e)])
  | _ => (Except.error "TypeError: undefined node configuration", [])

/-- `executeOutputNode(node, context, onLog)` from `nodes.ts`: log and
pass the resolved input through unchanged. -/
def executeOutputNode (node : NodeData) (ctx : ExecutionContext) :
    Except String Value × List Event :=
  let inputData := getNodeInputData node.id ctx
  (Except.ok inputData, [Event.log .info "Output node received data"])

/-- The two external effects of a run, passed as oracles: the HTTP client
used by api nodes and the expression evaluator used by transform nodes. -/
structure Oracles where
  http : HttpRequest → Except String HttpResponse
  eval : String → Value → Except String Value

/-- The `switch (node.type)` dispatch inside `executeGraph`'s loop.  (The
`default:` branch throwing `Unknown node type` is unreachable for the
closed `NodeKind`.) -/
def runNode (o : Oracles) (node : NodeData) (ctx : ExecutionContext) :
    Except String Value × List Event :=
  match node.type with
  | .api => executeApiNode o.http node ctx
  | .transform => executeTransformNode o.eval node ctx
  | .output => executeOutputNode node ctx

/-- One iteration of `executeGraph`'s `for (const nodeId of
executionOrder)` loop: skip unknown ids; otherwise mark running, run the
executor, and record success (store output) or failure (store message) —
the `catch` never rethrows, so the loop always continues. -/
def execStep (o : Oracles) (g : Graph) (acc : ExecutionContext × List Event)
    (nodeId : String) : ExecutionContext × List Event :=
  match g.nodes.find? (fun n => n.id == nodeId) with
  | none => acc
  | some node =>
    let ctx1 : ExecutionContext :=
      { acc.1 with nodeStatuses := setKey acc.1.nodeStatuses nodeId .running }
    let evs1 := acc.2 ++
      [Event.update nodeId .running none none,
       Event.log .info ("Executing node: " ++ nodeId ++ " (" ++ kindToString node.type ++ ")")]
    let r := runNode o node ctx1
    match r.1 with
    | .ok output =>
      ({ ctx1 with nodeOutputs := setKey ctx1.nodeOutputs nodeId output,
                   nodeStatuses := setKey ctx1.nodeStatuses nodeId .success },
       evs1 ++ r.2 ++
         [Event.update nodeId .success (some output) none,
          Event.log .info ("Node " ++ nodeId ++ " completed successfully")])
    | .error msg =>
      ({ ctx1 with nodeErrors := setKey ctx1.nodeErrors nodeId msg,
                   nodeStatuses := setKey ctx1.nodeStatuses nodeId .error },
       evs1 ++ r.2 ++
         [Event.update nodeId .error none (some msg),
          Event.log .error ("Node " ++ nodeId ++ " failed: " ++ msg)])

/-- The diagnostic of the pre-flight cycle abort. -/
def cyclesMessage (cycles : List String) : String :=
  "Graph contains cycles: " ++ String.intercalate " -> " cycles

/-- `executeGraph(graph, onNodeUpdate, onLog)` from `execution.ts`.  The
thrown pre-flight failures become `Except.error`; the returned pair also
carries the ordered list of callback invocations that happened before the
return or the throw. -/
def executeGraph (o : Oracles) (g : Graph) :
    Except String ExecutionContext × List Event :=
  let cycles := detectCycles g
  if cycles.length > 0 then
    (Except.error (cyclesMessage cycles), [])
  else
    match topologicalSort g with
    | .error e => (Except.error e, [])
    | .ok executionOrder =>
      let startEvs :=
        [Event.log .info ("Starting execution of " ++ toString g.nodes.length ++
          " nodes in order: " ++ String.intercalate ", " executionOrder)]
      let result := executionOrder.foldl (execStep o g) (⟨[], [], []⟩, startEvs)
      (Except.ok result.1, result.2 ++ [Event.log .info "Graph execution completed"])

/-- The node ids that received a `running` update during a run, in order:
exactly the nodes whose execution was attempted. -/
def attemptedNodes (tr : List Event) : List String :=
  tr.filterMap (fun ev =>
    match ev with
    | .update x .running _ _ => some x
    | _ => none)

/-! ### Claim C6: the first-available-output input policy -/

/-- The `{status, statusText, headers, data}` object returned by
`executeApiNode` for a received response. -/
def apiResponseValue (resp : HttpResponse) : Value :=
  Value.obj (fieldsOfList
    [("status", .num resp.status),
     ("statusText", .str resp.statusText),
     ("headers", .obj (fieldsOfList (resp.headers.map (fun p => (p.1, Value.str p.2))))),
     ("data", resp.data)])

/-- C6: during `executeGraph`, a transform or sink node's input is the
first entry of the context's output collection at that point (not the
output of its direct predecessor by edge — no edge is consulted), and the
sink executor returns that input unchanged as its own output. -/
theorem C6_first_output_input_policy :
    ∀ (ctx : ExecutionContext) (nodeId : String) (node : NodeData)
      (d : TransformNodeData) (kind : NodeKind)
      (evalFn : String → Value → Except String Value),
      getNodeInputData nodeId ctx =
        (match ctx.nodeOutputs with
         | [] => Value.null
         | p :: _ => p.2) ∧
      (executeOutputNode node ctx).1 = Except.ok (getNodeInputData node.id ctx) ∧
      (executeTransformNode evalFn ⟨nodeId, kind, .transform d⟩ ctx).1 =
        evalFn d.expression (getNodeInputData nodeId ctx) := by
  intro ctx nodeId node d kind evalFn
  refine ⟨?_, rfl, ?_⟩
  · unfold getNodeInputData
    cases ctx.nodeOutputs with
    | nil => rfl
    | cons p rest => rfl
  · unfold executeTransformNode
    cases h : evalFn d.expression (getNodeInputData nodeId ctx) with
    | ok v => simp [h]
    | error e => simp [h]

/-! ### Claim C5: interpolation against the spec's resolution model -/

/-- The scanner only depends on the replacer's values. -/
theorem interpAux_congr (r1 r2 : String → String) (h : ∀ t, r1 t = r2 t) :
    ∀ fuel cs, interpAux r1 fuel cs = interpAux r2 fuel cs := by
  intro fuel
  induction fuel with
  | zero => intro cs; rfl
  | succ n ih =>
    intro cs
    cases cs with
    | nil => rfl
    | cons c rest =>
      simp only [interpAux]
      cases htok : tryToken (c :: rest) with
      | none => simp [ih]
      | some p => simp [h, ih]

/-- The implementation's lookup object coincides with the amended
resolution model (with the truthiness condition on the `data` binding). -/
theorem buildLookup_eq_amended (o : List (String × Value)) :
    buildLookup o = specLookupFieldsAmended o := by
  unfold buildLookup specLookupFieldsAmended
  cases h : o.map Prod.snd with
  | nil => simp [h]
  | cons v rest =>
    by_cases hv : isTruthy v <;> simp [h, hv]

/-- C5 counterexample: the claim binds `data` to the first available
output unconditionally, but the implementation's `if (firstOutput)` skips
the binding for a falsy first output, so the `\x7b\x7bdata\x7d\x7d` token
stays verbatim where the claimed resolution model substitutes `"false"`. -/
theorem C5_interpolation_counterexample :
    interpolateVariables "\x7b\x7bdata\x7d\x7d" [("n0", Value.bool false)] = "\x7b\x7bdata\x7d\x7d" ∧
    specInterpolate "\x7b\x7bdata\x7d\x7d" [("n0", Value.bool false)] = "false" ∧
    interpolateVariables "\x7b\x7bdata\x7d\x7d" [("n0", Value.bool false)] ≠
      specInterpolate "\x7b\x7bdata\x7d\x7d" [("n0", Value.bool false)] := by
  refine ⟨by decide, by decide, by decide⟩

/-- C5 (amended): `interpolateVariables` replaces each `\x7b\x7b path \x7d\x7d`
occurrence with the stringified value of the whitespace-trimmed dot-path
resolved against the lookup object binding the i-th output to `node<i>`
and the first output — when truthy — also to `data`; unresolved or
`undefined` tokens stay verbatim. -/
theorem C5_interpolation_amended :
    ∀ (template : String) (outputs : List (String × Value)),
      interpolateVariables template outputs = specInterpolateAmended template outputs := by
  intro template outputs
  unfold interpolateVariables specInterpolateAmended
  congr 1
  apply interpAux_congr
  intro t
  unfold interpReplace
  rw [buildLookup_eq_amended]

/-! ### Claim C7: the HTTP executor and status codes -/

/-- C7 (amended): whenever the HTTP client returns a response — any
status code, 4xx/5xx included — `executeApiNode` completes successfully
with the `{status, statusText, headers, data}` object (the response body
is stored under the key `data`, not `body`); when the client fails at the
network level, the executor fails with that error. -/
theorem C7_api_executor_amended :
    ∀ (httpFn : HttpRequest → Except String HttpResponse) (nodeId : String)
      (kind : NodeKind) (d : ApiNodeData) (ctx : ExecutionContext)
      (resp : HttpResponse) (err : String),
      (httpFn (apiRequest d ctx) = .ok resp →
        (executeApiNode httpFn ⟨nodeId, kind, .api d⟩ ctx).1 =
          Except.ok (apiResponseValue resp)) ∧
      (httpFn (apiRequest d ctx) = .error err →
        (executeApiNode httpFn ⟨nodeId, kind, .api d⟩ ctx).1 = Except.error err) := by
  intro httpFn nodeId kind d ctx resp err
  constructor
  · intro h
    unfold executeApiNode
    simp [h, apiResponseValue]
  · intro h
    unfold executeApiNode
    simp [h]

/-- Configuration of the concrete api node used for C7. -/
def c7Data : ApiNodeData :=
  ⟨.GET, "http://localhost/x", [], "", false⟩

/-- A concrete 404 response. -/
def c7Resp404 : HttpResponse :=
  ⟨404, "Not Found", [("content-type", "text/plain")], .str "missing"⟩

/-- An HTTP client that always delivers the 404 response. -/
def c7Http404 : HttpRequest → Except String HttpResponse :=
  fun _ => .ok c7Resp404

/-- The empty execution context. -/
def emptyCtx : ExecutionContext :=
  ⟨[], [], []⟩

/-- C7 counterexample: on a received 404 response the executor does
complete successfully, but its output stores the body under the key
`data` and has no `body` member, contradicting the claimed output shape
`{status, statusText, headers, body}`. -/
theorem C7_api_executor_counterexample :
    (executeApiNode c7Http404 ⟨"a", .api, .api c7Data⟩ emptyCtx).1 =
      Except.ok (apiResponseValue c7Resp404) ∧
    getProp (apiResponseValue c7Resp404) "body" = none ∧
    getProp (apiResponseValue c7Resp404) "data" = some (.str "missing") ∧
    getProp (apiResponseValue c7Resp404) "status" = some (.num 404) := by
  refine ⟨rfl, rfl, rfl, rfl⟩

/-- A concrete 500 response for the C7 witness. -/
def c7Resp500 : HttpResponse :=
  ⟨500, "Internal Server Error", [], .str "boom"⟩

/-- An HTTP client that always delivers the 500 response. -/
def c7Http500 : HttpRequest → Except String HttpResponse :=
  fun _ => .ok c7Resp500

/-- Witness for C7 (amended) at a concrete 5xx response. -/
theorem C7_api_executor_amended_witness :
    c7Http500 (apiRequest c7Data emptyCtx) = .ok c7Resp500 ∧
    (executeApiNode c7Http500 ⟨"a", .api, .api c7Data⟩ emptyCtx).1 =
      Except.ok (apiResponseValue c7Resp500) :=
  ⟨rfl, (C7_api_executor_amended c7Http500 "a" .api c7Data emptyCtx c7Resp500 "").1 rfl⟩

/-! ### Kahn's algorithm: characterization lemmas -/

/-- A filter's length splits along any second predicate. -/
theorem filter_length_split (l : List α) (p q : α → Bool) :
    (l.filter p).length =
      (l.filter (fun a => p a && q a)).length + (l.filter (fun a => p a && !q a)).length := by
  induction l with
  | nil => rfl
  | cons a rest ih =>
    by_cases hp : p a
    · by_cases hq : q a <;> simp [List.filter_cons, hp, hq, ih] <;> omega
    · simp [List.filter_cons, hp, ih]

/-- The node-initialisation fold of `buildInDegree`. -/
theorem inDegreeInit_eq (l : List NodeData) (f0 : String → Option Int) (x : String) :
    (l.foldl (fun f n => fun y => if y = n.id then some 0 else f y) f0) x =
      if x ∈ l.map NodeData.id then some 0 else f0 x := by
  induction l generalizing f0 with
  | nil => simp
  | cons n rest ih =>
    rw [List.foldl_cons, ih]
    by_cases hx : x ∈ rest.map NodeData.id
    · simp [hx]
    · by_cases hn : x = n.id <;> simp [hx, hn]

/-- The edge fold of `buildInDegree` adds the target multiplicity. -/
theorem inDegreeEdges_eq (l : List Edge) (f0 : String → Option Int) (x : String) :
    (l.foldl (fun f e => incKey f e.target) f0) x =
      (f0 x).map (fun v => v + ((l.map Edge.target).count x : Int)) := by
  induction l generalizing f0 with
  | nil => cases h : f0 x <;> simp [h]
  | cons e rest ih =>
    rw [List.foldl_cons, ih]
    unfold incKey
    by_cases hx : x = e.target
    · subst hx
      simp only [if_pos rfl, Option.map_map, List.count_cons, beq_self_eq_true, if_true]
      cases h : f0 e.target with
      | none => simp
      | some v =>
        simp [Function.comp]
        push_cast
        ring
    · have hb : (e.target == x) = false := by simp [Ne.symm hx]
      simp [hx, List.count_cons, hb]

/-- `buildInDegree` holds exactly the in-edge multiplicity on node ids
and `none` elsewhere. -/
theorem buildInDegree_eq (g : Graph) (x : String) :
    buildInDegree g x =
      if x ∈ g.ids then some (((g.edges.map Edge.target).count x : Int)) else none := by
  unfold buildInDegree
  rw [inDegreeEdges_eq, inDegreeInit_eq]
  by_cases hx : x ∈ g.ids <;> simp [Graph.ids] at hx ⊢ <;> simp [hx]

/-- The adjacency fold: multiplicity of `t` in `adjacencyList[x]`. -/
theorem adjacencyFold_count (l : List Edge) (f0 : String → List String) (x t : String) :
    ((l.foldl (fun f e => fun y => if y = e.source then f e.source ++ [e.target] else f y) f0) x).count t =
      (f0 x).count t + (l.filter (fun e => e.source == x && e.target == t)).length := by
  induction l generalizing f0 with
  | nil => simp
  | cons e rest ih =>
    rw [List.foldl_cons, ih]
    by_cases hx : x = e.source
    · subst hx
      by_cases ht : e.target = t <;>
        simp [List.count_append, List.count_cons, ht, List.filter_cons] <;> omega
    · have h1 : (e.source == x) = false := by simp [Ne.symm hx]
      simp [Ne.symm hx, hx, h1, List.filter_cons]

/-- Multiplicity of `t` among the stored neighbours of `x`. -/
theorem buildAdjacency_count (g : Graph) (x t : String) :
    (buildAdjacency g x).count t =
      (g.edges.filter (fun e => e.source == x && e.target == t)).length := by
  unfold buildAdjacency
  rw [adjacencyFold_count]
  simp

/-- Stored neighbours are edge targets. -/
theorem buildAdjacency_subset (g : Graph) (x t : String) (h : t ∈ buildAdjacency g x) :
    t ∈ g.edges.map Edge.target := by
  have hc : 0 < (buildAdjacency g x).count t := List.count_pos_iff_mem.2 h
  rw [buildAdjacency_count] at hc
  obtain ⟨e, he⟩ := List.exists_mem_of_length_pos hc
  obtain ⟨he1, he2⟩ := List.mem_filter.1 he
  simp only [Bool.and_eq_true, beq_iff_eq] at he2
  exact List.mem_map.2 ⟨e, he1, he2.2⟩

/-- Pointwise effect of the neighbour loop on the in-degree record:
subtract the neighbour multiplicity. -/
theorem processNeighbors_inDeg (ns : List String) (d : String → Option Int) (q : List String)
    (x : String) :
    (processNeighbors ns d q).1 x = (d x).map (fun v => v - (ns.count x : Int)) := by
  induction ns generalizing d q with
  | nil => cases h : d x <;> simp [processNeighbors, h]
  | cons t rest ih =>
    unfold processNeighbors
    rw [ih]
    unfold decKey
    by_cases hx : x = t
    · subst hx
      have hb : (x == x) = true := by simp
      cases h : d x <;>
        simp [h, Option.map_map, List.count_cons, hb, Function.comp] <;> omega
    · have hb : (t == x) = false := by simp [Ne.symm hx]
      simp [hx, List.count_cons, hb]

/-- The neighbour loop appends exactly the nodes whose in-degree crosses
zero: those with a present degree `v` with `1 ≤ v ≤` multiplicity in the
neighbour list; each is appended once. -/
theorem processNeighbors_queue (ns : List String) (d : String → Option Int) (q : List String) :
    ∃ p, (processNeighbors ns d q).2 = q ++ p ∧ p.Nodup ∧
      (∀ x, x ∈ p ↔ ∃ v : Int, d x = some v ∧ 1 ≤ v ∧ v ≤ (ns.count x : Int)) := by
  induction ns generalizing d q with
  | nil =>
    refine ⟨[], by simp [processNeighbors], by simp, ?_⟩
    intro x
    simp only [List.not_mem_nil, false_iff]
    rintro ⟨v, _, h1, h2⟩
    simp at h2
    omega
  | cons t rest ih =>
    unfold processNeighbors
    obtain ⟨p', hp'eq, hp'nd, hp'mem⟩ :=
      ih (decKey d t) (if decKey d t t = some 0 then q ++ [t] else q)
    by_cases hpush : decKey d t t = some 0
    · have hdt : d t = some 1 := by
        unfold decKey at hpush
        rw [if_pos rfl] at hpush
        cases h : d t with
        | none => rw [h] at hpush; simp at hpush
        | some v =>
          rw [h] at hpush
          simp at hpush
          have hv1 : v = 1 := by omega
          rw [hv1]
      refine ⟨t :: p', ?_, ?_, ?_⟩
      · rw [hp'eq, if_pos hpush]
        simp
      · have : t ∉ p' := by
          rw [hp'mem t]
          rintro ⟨v, hv, h1, _⟩
          unfold decKey at hv
          simp [hdt] at hv
          omega
        exact List.nodup_cons.2 ⟨this, hp'nd⟩
      · intro x
        by_cases hx : x = t
        · subst hx
          simp only [List.mem_cons, true_or, true_iff]
          refine ⟨1, hdt, le_refl _, ?_⟩
          have h1 : 1 ≤ List.count x (x :: rest) := by
            rw [List.count_cons]
            simp only [beq_self_eq_true, if_true]
            omega
          exact_mod_cast h1
        · have hd' : decKey d t x = d x := by
            unfold decKey
            simp [hx]
          have hcnt : List.count x (t :: rest) = List.count x rest := by
            have : (t == x) = false := by simp [Ne.symm hx]
            simp [List.count_cons, this]
          simp only [List.mem_cons, hx, false_or]
          rw [hp'mem x, hd', hcnt]
    · have hdt : ∀ v : Int, d t = some v → v ≠ 1 := by
        intro v hv hv1
        apply hpush
        unfold decKey
        simp [hv, hv1]
      refine ⟨p', by rw [hp'eq, if_neg hpush], hp'nd, ?_⟩
      intro x
      by_cases hx : x = t
      · subst hx
        rw [hp'mem x]
        have hcnt : (List.count x (x :: rest) : Int) = (List.count x rest : Int) + 1 := by
          simp [List.count_cons]
        rw [hcnt]
        unfold decKey
        simp only [if_pos rfl]
        constructor
        · rintro ⟨v', hv', h1, h2⟩
          cases h : d x with
          | none => rw [h] at hv'; simp at hv'
          | some v =>
            rw [h] at hv'
            simp at hv'
            exact ⟨v, rfl, by omega, by omega⟩
        · rintro ⟨v, hv, h1, h2⟩
          have hne := hdt v hv
          exact ⟨v - 1, by simp [hv], by omega, by omega⟩
      · have hd' : decKey d t x = d x := by
          unfold decKey
          simp [hx]
        have hcnt : List.count x (t :: rest) = List.count x rest := by
          have : (t == x) = false := by simp [Ne.symm hx]
          simp [List.count_cons, this]
        rw [hp'mem x, hd', hcnt]

/-- Clamped value of an in-degree entry. -/
def intClamp : Option Int → Nat
  | none => 0
  | some v => v.toNat

/-- Loop measure for Kahn's algorithm: queue length plus the clamped
in-degrees summed over the edge-target multiset. -/
def kahnMeasure (T : List String) (s : KahnState) : Nat :=
  s.queue.length + (T.map (fun t => intClamp (s.inDeg t))).sum

/-- A clamped-sum drop lemma: a pointwise non-increasing update that
strictly drops on each member of a duplicate-free list `p` of members of
`T` shrinks the sum by at least `p.length`. -/
theorem clampSum_drop (T : List String) (d d' : String → Option Int) (p : List String)
    (hnd : p.Nodup)
    (hle : ∀ x, intClamp (d' x) ≤ intClamp (d x))
    (hdrop : ∀ x ∈ p, x ∈ T ∧ intClamp (d' x) + 1 ≤ intClamp (d x)) :
    (T.map (fun t => intClamp (d' t))).sum + p.length ≤
      (T.map (fun t => intClamp (d t))).sum := by
  induction p generalizing T with
  | nil =>
    simp only [List.length_nil, Nat.add_zero]
    exact List.sum_le_sum (fun t _ => hle t)
  | cons x p' ih =>
    obtain ⟨hxT, hxdrop⟩ := hdrop x (by simp)
    obtain ⟨T1, T2, rfl⟩ := List.append_of_mem hxT
    have hsub : ∀ y ∈ p', y ∈ T1 ++ T2 ∧ intClamp (d' y) + 1 ≤ intClamp (d y) := by
      intro y hy
      obtain ⟨hyT, hydrop⟩ := hdrop y (by simp [hy])
      refine ⟨?_, hydrop⟩
      have hyx : y ≠ x := by
        intro h
        subst h
        exact (List.nodup_cons.1 hnd).1 hy
      simp only [List.mem_append, List.mem_cons] at hyT
      rcases hyT with h | h | h
      · exact List.mem_append.2 (Or.inl h)
      · exact absurd h hyx
      · exact List.mem_append.2 (Or.inr h)
    have := ih (T1 ++ T2) (List.nodup_cons.1 hnd).2 hsub
    simp only [List.map_append, List.sum_append, List.map_cons, List.sum_cons,
      List.length_cons] at this ⊢
    omega

/-- One Kahn iteration strictly decreases the measure. -/
theorem kahnStep_measure (g : Graph) (current : String) (rest : List String)
    (d : String → Option Int) (result : List String) :
    kahnMeasure (g.edges.map Edge.target)
      { queue := (processNeighbors (buildAdjacency g current) d rest).2,
        inDeg := (processNeighbors (buildAdjacency g current) d rest).1,
        result := result ++ [current] } + 1 ≤
    kahnMeasure (g.edges.map Edge.target)
      { queue := current :: rest, inDeg := d, result := result } := by
  obtain ⟨p, hpeq, hpnd, hpmem⟩ := processNeighbors_queue (buildAdjacency g current) d rest
  have hin := processNeighbors_inDeg (buildAdjacency g current) d rest
  unfold kahnMeasure
  simp only [hpeq, List.length_append, List.length_cons]
  have hle : ∀ x, intClamp ((processNeighbors (buildAdjacency g current) d rest).1 x) ≤
      intClamp (d x) := by
    intro x
    rw [hin x]
    cases h : d x with
    | none => simp [intClamp]
    | some v =>
      simp only [Option.map_some', intClamp]
      omega
  have hdrop : ∀ x ∈ p, x ∈ g.edges.map Edge.target ∧
      intClamp ((processNeighbors (buildAdjacency g current) d rest).1 x) + 1 ≤
        intClamp (d x) := by
    intro x hx
    obtain ⟨v, hdx, h1, h2⟩ := (hpmem x).1 hx
    have hcnt : 1 ≤ List.count x (buildAdjacency g current) := by omega
    constructor
    · exact buildAdjacency_subset g current x (List.count_pos_iff.1 (by omega))
    · rw [hin x, hdx]
      simp [intClamp]
      omega
  have hsum := clampSum_drop (g.edges.map Edge.target) d
    (processNeighbors (buildAdjacency g current) d rest).1 p hpnd hle hdrop
  omega

/-- With fuel at least the measure, the queue is fully drained. -/
theorem kahnLoop_complete (g : Graph) :
    ∀ fuel s, kahnMeasure (g.edges.map Edge.target) s ≤ fuel →
      (kahnLoop (buildAdjacency g) fuel s).queue = [] := by
  intro fuel
  induction fuel with
  | zero =>
    intro s h
    unfold kahnMeasure at h
    have : s.queue.length = 0 := by omega
    unfold kahnLoop
    exact List.length_eq_zero.1 this
  | succ n ih =>
    intro s h
    unfold kahnLoop
    cases hq : s.queue with
    | nil => exact hq
    | cons current rest =>
      apply ih
      have hstep := kahnStep_measure g current rest s.inDeg s.result
      have hs : kahnMeasure (g.edges.map Edge.target) s =
          kahnMeasure (g.edges.map Edge.target)
            { queue := current :: rest, inDeg := s.inDeg, result := s.result } := by
        unfold kahnMeasure
        rw [hq]
      omega

/-! ### Kahn's algorithm: the loop invariant -/

/-- Number of edges into `x` whose source has not yet been emitted. -/
def remInDegree (g : Graph) (result : List String) (x : String) : Nat :=
  (g.edges.filter (fun e => e.target == x && decide (e.source ∉ result))).length

/-- The invariant of Kahn's `while` loop, relative to the graph. -/
structure KahnInv (g : Graph) (s : KahnState) : Prop where
  nodup : (s.result ++ s.queue).Nodup
  resultIds : ∀ x ∈ s.result, x ∈ g.ids
  queueIds : ∀ x ∈ s.queue, x ∈ g.ids
  deg : ∀ x ∈ g.ids, s.inDeg x = some ((remInDegree g s.result x : Int))
  degNone : ∀ x, x ∉ g.ids → s.inDeg x = none
  queueZero : ∀ x ∈ s.queue, s.inDeg x = some 0
  resultZero : ∀ x ∈ s.result, s.inDeg x = some 0
  covered : ∀ x ∈ g.ids, s.inDeg x = some 0 → x ∈ s.result ∨ x ∈ s.queue
  sorted : ∀ e ∈ g.edges, e.target ∈ s.result →
    ∃ l1 l2, s.result = l1 ++ e.target :: l2 ∧ e.source ∈ l1

/-- An edge into `x` from an unemitted source witnesses a positive
remaining in-degree. -/
theorem remInDegree_pos (g : Graph) (result : List String) (x : String) (e : Edge)
    (he : e ∈ g.edges) (ht : e.target = x) (hs : e.source ∉ result) :
    1 ≤ remInDegree g result x := by
  have hmem : e ∈ g.edges.filter (fun e => e.target == x && decide (e.source ∉ result)) :=
    List.mem_filter.2 ⟨he, by simp [ht, hs]⟩
  exact List.length_pos.2 (List.ne_nil_of_mem hmem)

/-- A positive neighbour multiplicity witnesses an edge. -/
theorem edge_of_count_pos (g : Graph) (current x : String)
    (h : 1 ≤ List.count x (buildAdjacency g current)) :
    ∃ e ∈ g.edges, e.source = current ∧ e.target = x := by
  rw [buildAdjacency_count] at h
  obtain ⟨e, he⟩ := List.exists_mem_of_length_pos h
  obtain ⟨he1, he2⟩ := List.mem_filter.1 he
  simp only [Bool.and_eq_true, beq_iff_eq] at he2
  exact ⟨e, he1, he2⟩

/-- Splitting the remaining in-degree at an unemitted node `current`:
the edges from `current` itself plus the edges that remain after
emitting it. -/
theorem remInDegree_split (g : Graph) (result : List String) (current x : String)
    (hcur : current ∉ result) :
    remInDegree g result x =
      List.count x (buildAdjacency g current) + remInDegree g (result ++ [current]) x := by
  unfold remInDegree
  rw [buildAdjacency_count]
  rw [filter_length_split g.edges
    (fun e => e.target == x && decide (e.source ∉ result))
    (fun e => e.source == current)]
  congr 1
  · apply congrArg
    apply List.filter_congr
    intro e _
    by_cases h2 : e.source = current
    · subst h2
      by_cases h1 : e.target = x <;> simp [h1, hcur]
    · by_cases h1 : e.target = x <;> by_cases h3 : e.source ∈ result <;>
        simp [h1, h2, h3, Bool.and_comm]
  · apply congrArg
    apply List.filter_congr
    intro e _
    by_cases h2 : e.source = current
    · subst h2
      by_cases h1 : e.target = x <;> simp [h1, hcur]
    · by_cases h1 : e.target = x <;> by_cases h3 : e.source ∈ result <;> simp [h1, h2, h3]

/-- One iteration of Kahn's loop preserves the invariant. -/
theorem kahnStep_inv (g : Graph) (current : String) (rest : List String)
    (d : String → Option Int) (result : List String)
    (hinv : KahnInv g { queue := current :: rest, inDeg := d, result := result }) :
    KahnInv g
      { queue := (processNeighbors (buildAdjacency g current) d rest).2,
        inDeg := (processNeighbors (buildAdjacency g current) d rest).1,
        result := result ++ [current] } := by
  obtain ⟨p, hpeq, hpnd, hpmem⟩ := processNeighbors_queue (buildAdjacency g current) d rest
  have hin := processNeighbors_inDeg (buildAdjacency g current) d rest
  have hnd : (result ++ current :: rest).Nodup := hinv.nodup
  have hdeg : ∀ x ∈ g.ids, d x = some ((remInDegree g result x : Int)) := hinv.deg
  have hdegN : ∀ x, x ∉ g.ids → d x = none := hinv.degNone
  have hqz : ∀ x ∈ current :: rest, d x = some 0 := hinv.queueZero
  have hrz : ∀ x ∈ result, d x = some 0 := hinv.resultZero
  have hrids : ∀ x ∈ result, x ∈ g.ids := hinv.resultIds
  have hqids : ∀ x ∈ current :: rest, x ∈ g.ids := hinv.queueIds
  have hcov : ∀ x ∈ g.ids, d x = some 0 → x ∈ result ∨ x ∈ current :: rest := hinv.covered
  have hsort : ∀ e ∈ g.edges, e.target ∈ result →
      ∃ l1 l2, result = l1 ++ e.target :: l2 ∧ e.source ∈ l1 := hinv.sorted
  have hcur_id : current ∈ g.ids := hqids current (by simp)
  have hcur0 : d current = some 0 := hqz current (by simp)
  have hcur_res : current ∉ result := by
    intro h
    have := (List.nodup_append.1 hnd).2.2 h
    simp at this
  have hcur_rest : current ∉ rest := (List.nodup_cons.1 (List.nodup_append.1 hnd).2.1).1
  have hrem0 : remInDegree g result current = 0 := by
    have h := (hdeg current hcur_id).symm.trans hcur0
    have h' : ((remInDegree g result current : Int)) = 0 := Option.some.inj h
    exact_mod_cast h'
  have hsplit : ∀ x, remInDegree g result x =
      List.count x (buildAdjacency g current) + remInDegree g (result ++ [current]) x :=
    fun x => remInDegree_split g result current x hcur_res
  have hF1 : ∀ e ∈ g.edges, e.target = current → e.source ∈ result := by
    intro e he ht
    by_contra hs
    have := remInDegree_pos g result current e he ht hs
    omega
  have hcnt0 : ∀ x, d x = some 0 → x ∈ g.ids →
      List.count x (buildAdjacency g current) = 0 := by
    intro x hx hxid
    by_contra h
    obtain ⟨e, he, hs, ht⟩ := edge_of_count_pos g current x (Nat.one_le_iff_ne_zero.2 h)
    have hpos := remInDegree_pos g result x e he ht (by rw [hs]; exact hcur_res)
    have hd := (hdeg x hxid).symm.trans hx
    have h' : ((remInDegree g result x : Int)) = 0 := Option.some.inj hd
    omega
  have hp_ids : ∀ x ∈ p, x ∈ g.ids := by
    intro x hx
    obtain ⟨v, hv, _, _⟩ := (hpmem x).1 hx
    by_contra hxid
    rw [hdegN x hxid] at hv
    simp at hv
  have hp_pos : ∀ x ∈ p, d x ≠ some 0 := by
    intro x hx
    obtain ⟨v, hv, h1, _⟩ := (hpmem x).1 hx
    rw [hv]
    intro h
    have := Option.some.inj h
    omega
  have hp_res : ∀ x ∈ p, x ∉ result := fun x hx h => hp_pos x hx (hrz x h)
  have hp_rest : ∀ x ∈ p, x ∉ rest :=
    fun x hx h => hp_pos x hx (hqz x (by simp [h]))
  have hp_cur : ∀ x ∈ p, x ≠ current := fun x hx h => hp_pos x hx (h ▸ hcur0)
  refine { nodup := ?_, resultIds := ?_, queueIds := ?_, deg := ?_, degNone := ?_,
           queueZero := ?_, resultZero := ?_, covered := ?_, sorted := ?_ }
  · -- nodup
    dsimp only
    simp only [hpeq]
    obtain ⟨hres_nd, hq_nd, hdisj⟩ := List.nodup_append.1 hnd
    have hrest_nd : rest.Nodup := (List.nodup_cons.1 hq_nd).2
    apply List.nodup_append.2
    refine ⟨?_, ?_, ?_⟩
    · apply List.nodup_append.2
      refine ⟨hres_nd, by simp, ?_⟩
      intro a ha hb
      simp only [List.mem_singleton] at hb
      subst hb
      exact hcur_res ha
    · apply List.nodup_append.2
      exact ⟨hrest_nd, hpnd, fun a ha hap => hp_rest a hap ha⟩
    · intro a ha hb
      simp only [List.mem_append, List.mem_singleton] at ha hb
      rcases ha with ha | ha
      · rcases hb with hb | hb
        · exact hdisj ha (by simp [hb])
        · exact hp_res a hb ha
      · subst ha
        rcases hb with hb | hb
        · exact hcur_rest hb
        · exact hp_cur a hb rfl
  · -- resultIds
    dsimp only
    intro x hx
    simp only [List.mem_append, List.mem_singleton] at hx
    rcases hx with hx | hx
    · exact hrids x hx
    · subst hx; exact hcur_id
  · -- queueIds
    dsimp only
    intro x hx
    simp only [hpeq, List.mem_append] at hx
    rcases hx with hx | hx
    · exact hqids x (by simp [hx])
    · exact hp_ids x hx
  · -- deg
    dsimp only
    intro x hx
    rw [hin x, hdeg x hx]
    simp only [Option.map_some']
    congr 1
    have hs := hsplit x
    push_cast [hs]
    ring
  · -- degNone
    dsimp only
    intro x hx
    rw [hin x, hdegN x hx]
    rfl
  · -- queueZero
    dsimp only
    intro x hx
    simp only [hpeq, List.mem_append] at hx
    rcases hx with hx | hx
    · have hd0 : d x = some 0 := hqz x (by simp [hx])
      have hxid : x ∈ g.ids := hqids x (by simp [hx])
      rw [hin x, hd0]
      simp only [Option.map_some']
      rw [hcnt0 x hd0 hxid]
      simp
    · obtain ⟨v, hv, h1, h2⟩ := (hpmem x).1 hx
      rw [hin x, hv]
      simp only [Option.map_some']
      have hd := (hdeg x (hp_ids x hx)).symm.trans hv
      have hveq : ((remInDegree g result x : Int)) = v := Option.some.inj hd
      have hs := hsplit x
      congr 1
      omega
  · -- resultZero
    dsimp only
    intro x hx
    simp only [List.mem_append, List.mem_singleton] at hx
    have hd0 : d x = some 0 := by
      rcases hx with hx | hx
      · exact hrz x hx
      · subst hx; exact hcur0
    have hxid : x ∈ g.ids := by
      rcases hx with hx | hx
      · exact hrids x hx
      · subst hx; exact hcur_id
    rw [hin x, hd0]
    simp only [Option.map_some']
    rw [hcnt0 x hd0 hxid]
    simp
  · -- covered
    dsimp only
    intro x hx hdx'
    rw [hin x, hdeg x hx] at hdx'
    simp only [Option.map_some'] at hdx'
    have heq : ((remInDegree g result x : Int)) -
        (List.count x (buildAdjacency g current) : Int) = 0 := Option.some.inj hdx'
    have hs := hsplit x
    by_cases hc : List.count x (buildAdjacency g current) = 0
    · have hd0 : d x = some 0 := by
        rw [hdeg x hx]
        congr 1
        omega
      rcases hcov x hx hd0 with h | h
      · left
        simp [h]
      · simp only [List.mem_cons] at h
        rcases h with rfl | h
        · left
          simp
        · right
          simp [hpeq, h]
    · right
      have hxp : x ∈ p := (hpmem x).2
        ⟨(remInDegree g result x : Int), hdeg x hx, by omega, by omega⟩
      simp [hpeq, hxp]
  · -- sorted
    dsimp only
    intro e he ht
    simp only [List.mem_append, List.mem_singleton] at ht
    rcases ht with ht | ht
    · obtain ⟨l1, l2, hleq, hsrc⟩ := hsort e he ht
      exact ⟨l1, l2 ++ [current], by rw [hleq]; simp, hsrc⟩
    · exact ⟨result, [], by rw [ht], hF1 e he ht⟩

/-- The loop preserves the invariant for any fuel. -/
theorem kahnLoop_inv (g : Graph) :
    ∀ fuel s, KahnInv g s → KahnInv g (kahnLoop (buildAdjacency g) fuel s) := by
  intro fuel
  induction fuel with
  | zero =>
    intro s h
    unfold kahnLoop
    exact h
  | succ n ih =>
    intro s h
    unfold kahnLoop
    cases hq : s.queue with
    | nil => exact h
    | cons current rest =>
      apply ih
      have hs : s = { queue := current :: rest, inDeg := s.inDeg, result := s.result } := by
        cases s
        simp_all
      exact kahnStep_inv g current rest s.inDeg s.result (hs ▸ h)

/-- Targets counted through `map` versus by filtering edges. -/
theorem count_map_target (l : List Edge) (x : String) :
    (l.map Edge.target).count x = (l.filter (fun e => e.target == x)).length := by
  induction l with
  | nil => rfl
  | cons e rest ih =>
    by_cases h : e.target = x <;>
      simp [List.count_cons, List.filter_cons, h, ih]

/-- The invariant holds at the start of the loop. -/
theorem kahnInv_initial (g : Graph) (hwf : WellFormed g) :
    KahnInv g { queue := initialQueue g, inDeg := buildInDegree g, result := [] } := by
  have hqsub : (initialQueue g).Sublist g.ids := by
    unfold initialQueue Graph.ids
    exact List.Sublist.map NodeData.id (List.filter_sublist g.nodes)
  have hqnd : (initialQueue g).Nodup := List.Nodup.sublist hqsub hwf.1
  have hrem : ∀ x, remInDegree g [] x = ((g.edges.map Edge.target).count x) := by
    intro x
    unfold remInDegree
    rw [count_map_target]
    congr 1
    apply List.filter_congr
    intro e _
    simp
  refine { nodup := ?_, resultIds := ?_, queueIds := ?_, deg := ?_, degNone := ?_,
           queueZero := ?_, resultZero := ?_, covered := ?_, sorted := ?_ }
  · dsimp only
    simpa using hqnd
  · intro x hx
    simp at hx
  · intro x hx
    exact hqsub.subset hx
  · intro x hx
    dsimp only
    rw [buildInDegree_eq, if_pos hx, hrem]
  · intro x hx
    dsimp only
    rw [buildInDegree_eq, if_neg hx]
  · intro x hx
    dsimp only
    unfold initialQueue at hx
    obtain ⟨n, hn, hnx⟩ := List.mem_map.1 hx
    obtain ⟨hn1, hn2⟩ := List.mem_filter.1 hn
    subst hnx
    exact eq_of_beq hn2
  · intro x hx
    simp at hx
  · intro x hx h0
    dsimp only at h0 ⊢
    right
    unfold Graph.ids at hx
    obtain ⟨n, hn, hnx⟩ := List.mem_map.1 hx
    subst hnx
    unfold initialQueue
    apply List.mem_map.2
    refine ⟨n, List.mem_filter.2 ⟨hn, ?_⟩, rfl⟩
    simp [h0]
  · intro e _ ht
    simp at ht

/-- A mapped sum with a uniform bound. -/
theorem sum_le_of_bound (l : List String) (f : String → Nat) (c : Nat)
    (h : ∀ x ∈ l, f x ≤ c) : (l.map f).sum ≤ l.length * c := by
  induction l with
  | nil => simp
  | cons a rest ih =>
    have h1 := h a (by simp)
    have h2 := ih (fun x hx => h x (by simp [hx]))
    simp only [List.map_cons, List.sum_cons, List.length_cons, Nat.succ_mul]
    omega

/-- The fuel passed by `topologicalSort` dominates the initial measure. -/
theorem kahnMeasure_initial_le (g : Graph) :
    kahnMeasure (g.edges.map Edge.target)
      { queue := initialQueue g, inDeg := buildInDegree g, result := [] } ≤ kahnFuel g := by
  unfold kahnMeasure kahnFuel
  have h1 : (initialQueue g).length ≤ g.nodes.length := by
    unfold initialQueue
    rw [List.length_map]
    exact List.length_filter_le _ _
  have h2 : ((g.edges.map Edge.target).map
      (fun t => intClamp (buildInDegree g t))).sum ≤ g.edges.length * g.edges.length := by
    have hb : ∀ t ∈ g.edges.map Edge.target,
        intClamp (buildInDegree g t) ≤ g.edges.length := by
      intro t _
      rw [buildInDegree_eq]
      by_cases ht : t ∈ g.ids
      · rw [if_pos ht]
        show ((List.count t (List.map Edge.target g.edges) : Int)).toNat ≤ g.edges.length
        rw [Int.toNat_natCast]
        calc (g.edges.map Edge.target).count t
            ≤ (g.edges.map Edge.target).length := List.count_le_length _ _
          _ = g.edges.length := List.length_map _ _
      · rw [if_neg ht]
        exact Nat.zero_le _

    calc ((g.edges.map Edge.target).map (fun t => intClamp (buildInDegree g t))).sum
        ≤ (g.edges.map Edge.target).length * g.edges.length :=
          sum_le_of_bound _ _ _ hb
      _ = g.edges.length * g.edges.length := by rw [List.length_map]
  dsimp only
  omega

/-- A strictly edge-increasing rank function certifies acyclicity. -/
theorem acyclic_of_rank (g : Graph) (r : String → Nat)
    (h : ∀ e ∈ g.edges, r e.source < r e.target) : Acyclic g := by
  have hmono : ∀ a b, Relation.TransGen (EdgeRel g) a b → r a < r b := by
    intro a b hab
    induction hab with
    | single h1 =>
      obtain ⟨e, he, hs, ht⟩ := h1
      rw [← hs, ← ht]
      exact h e he
    | tail _ h1 ih =>
      obtain ⟨e, he, hs, ht⟩ := h1
      rw [← ht]
      exact lt_trans ih (hs ▸ h e he)
  intro x hx
  exact lt_irrefl _ (hmono x x hx)

/-- A finite set in which every member has a predecessor contains a
cycle. -/
theorem exists_cycle_of_pred (g : Graph) (S : List String) (x0 : String) (hx0 : x0 ∈ S)
    (h : ∀ x ∈ S, ∃ y ∈ S, EdgeRel g y x) :
    ∃ x, Relation.TransGen (EdgeRel g) x x := by
  classical
  let f : {x // x ∈ S} → {x // x ∈ S} := fun z =>
    ⟨(h z.1 z.2).choose, (h z.1 z.2).choose_spec.1⟩
  have hf : ∀ z : {x // x ∈ S}, EdgeRel g (f z).1 z.1 :=
    fun z => (h z.1 z.2).choose_spec.2
  let seq : Nat → {x // x ∈ S} := fun n => f^[n] ⟨x0, hx0⟩
  have hstep : ∀ n, EdgeRel g (seq (n + 1)).1 (seq n).1 := by
    intro n
    have hit : seq (n + 1) = f (seq n) := Function.iterate_succ_apply' f n _
    rw [hit]
    exact hf (seq n)
  have hchain : ∀ i k, 1 ≤ k → Relation.TransGen (EdgeRel g) (seq (i + k)).1 (seq i).1 := by
    intro i k
    induction k with
    | zero => omega
    | succ m ihm =>
      intro _
      by_cases hm : 1 ≤ m
      · exact Relation.TransGen.head (by
          have := hstep (i + m)
          simpa [Nat.add_assoc] using this) (ihm hm)
      · have hm0 : m = 0 := by omega
        subst hm0
        exact Relation.TransGen.single (hstep i)
  have hmap : ∀ n ∈ Finset.range (S.length + 1), (seq n).1 ∈ S.toFinset :=
    fun n _ => List.mem_toFinset.2 (seq n).2
  have hcard : S.toFinset.card < (Finset.range (S.length + 1)).card := by
    rw [Finset.card_range]
    exact Nat.lt_succ_of_le (List.toFinset_card_le S)
  obtain ⟨i, _, j, _, hij, hmeq⟩ :=
    Finset.exists_ne_map_eq_of_card_lt_of_maps_to hcard hmap
  rcases Nat.lt_or_ge i j with hlt | hge
  · refine ⟨(seq j).1, ?_⟩
    have hc := hchain i (j - i) (by omega)
    rw [show i + (j - i) = j by omega] at hc
    rw [hmeq] at hc
    exact hc
  · have hlt : j < i := by omega
    refine ⟨(seq i).1, ?_⟩
    have hc := hchain j (i - j) (by omega)
    rw [show j + (i - j) = i by omega] at hc
    rw [← hmeq] at hc
    exact hc

/-- In a duplicate-free list split as `l1 ++ b :: l2`, members of `l1`
have a strictly smaller index than `b`. -/
theorem indexOf_lt_of_split (l1 l2 : List String) (a b : String)
    (hnd : (l1 ++ b :: l2).Nodup) (ha : a ∈ l1) :
    (l1 ++ b :: l2).indexOf a < (l1 ++ b :: l2).indexOf b := by
  induction l1 with
  | nil => simp at ha
  | cons c t ih =>
    have hc_rest : c ∉ t ++ b :: l2 := (List.nodup_cons.1 hnd).1
    have hnd' : (t ++ b :: l2).Nodup := (List.nodup_cons.1 hnd).2
    have hbc : b ≠ c := by
      intro hb
      exact hc_rest (by simp [hb.symm])
    by_cases hac : a = c
    · subst hac
      rw [List.cons_append, List.indexOf_cons_self, List.indexOf_cons_ne _ (Ne.symm hbc)]
      omega
    · have hat : a ∈ t := by
        rcases List.mem_cons.1 ha with h | h
        · exact absurd h hac
        · exact h
      rw [List.cons_append, List.indexOf_cons_ne _ (Ne.symm hac),
        List.indexOf_cons_ne _ (Ne.symm hbc)]
      exact Nat.succ_lt_succ (ih hnd' hat)

/-- The state in which Kahn's loop finishes inside `topologicalSort`. -/
def kahnFinal (g : Graph) : KahnState :=
  kahnLoop (buildAdjacency g) (kahnFuel g)
    { queue := initialQueue g, inDeg := buildInDegree g, result := [] }

/-- `topologicalSort` in terms of the final loop state. -/
theorem topologicalSort_eq (g : Graph) :
    topologicalSort g =
      if (kahnFinal g).result.length = g.nodes.length
      then Except.ok (kahnFinal g).result
      else Except.error "Graph contains cycles" := rfl

/-- The final state satisfies the loop invariant. -/
theorem kahnFinal_inv (g : Graph) (hwf : WellFormed g) : KahnInv g (kahnFinal g) :=
  kahnLoop_inv g (kahnFuel g) _ (kahnInv_initial g hwf)

/-- The final queue is drained. -/
theorem kahnFinal_queue (g : Graph) : (kahnFinal g).queue = [] :=
  kahnLoop_complete g (kahnFuel g) _ (kahnMeasure_initial_le g)

/-- On a well-formed acyclic graph the final result covers every node id. -/
theorem kahnFinal_complete (g : Graph) (hwf : WellFormed g) (hac : Acyclic g) :
    ∀ x ∈ g.ids, x ∈ (kahnFinal g).result := by
  by_contra h
  push_neg at h
  obtain ⟨x0, hx0id, hx0res⟩ := h
  have hinv := kahnFinal_inv g hwf
  have hSmem : ∀ y, y ∈ g.ids.filter (fun y => decide (y ∉ (kahnFinal g).result)) ↔
      y ∈ g.ids ∧ y ∉ (kahnFinal g).result := by
    intro y
    simp [List.mem_filter]
  have hx0S : x0 ∈ g.ids.filter (fun y => decide (y ∉ (kahnFinal g).result)) :=
    (hSmem x0).2 ⟨hx0id, hx0res⟩
  have hpred : ∀ x ∈ g.ids.filter (fun y => decide (y ∉ (kahnFinal g).result)),
      ∃ y ∈ g.ids.filter (fun y => decide (y ∉ (kahnFinal g).result)), EdgeRel g y x := by
    intro x hx
    obtain ⟨hxid, hxres⟩ := (hSmem x).1 hx
    have hnot0 : (kahnFinal g).inDeg x ≠ some 0 := by
      intro h0
      rcases hinv.covered x hxid h0 with hh | hh
      · exact hxres hh
      · rw [kahnFinal_queue g] at hh
        simp at hh
    have hd := hinv.deg x hxid
    have hrem : remInDegree g (kahnFinal g).result x ≠ 0 := by
      intro h0
      apply hnot0
      rw [hd, h0]
      rfl
    have hpos : 0 < remInDegree g (kahnFinal g).result x := Nat.pos_of_ne_zero hrem
    unfold remInDegree at hpos
    obtain ⟨e, he⟩ := List.exists_mem_of_length_pos hpos
    obtain ⟨he1, he2⟩ := List.mem_filter.1 he
    simp only [Bool.and_eq_true, beq_iff_eq, decide_eq_true_eq] at he2
    exact ⟨e.source, (hSmem e.source).2 ⟨(hwf.2 e he1).1, he2.2⟩, e, he1, rfl, he2.1⟩
  obtain ⟨x, hx⟩ := exists_cycle_of_pred g _ x0 hx0S hpred
  exact hac x hx

/-- On a well-formed acyclic graph the final result has full length. -/
theorem kahnFinal_length (g : Graph) (hwf : WellFormed g) (hac : Acyclic g) :
    (kahnFinal g).result.length = g.nodes.length := by
  have hinv := kahnFinal_inv g hwf
  have hnd : (kahnFinal g).result.Nodup := (List.nodup_append.1 hinv.nodup).1
  have hfeq : (kahnFinal g).result.toFinset = g.ids.toFinset := by
    apply Finset.Subset.antisymm
    · intro x hx
      exact List.mem_toFinset.2 (hinv.resultIds x (List.mem_toFinset.1 hx))
    · intro x hx
      exact List.mem_toFinset.2 (kahnFinal_complete g hwf hac x (List.mem_toFinset.1 hx))
  calc (kahnFinal g).result.length
      = (kahnFinal g).result.toFinset.card := (List.toFinset_card_of_nodup hnd).symm
    _ = g.ids.toFinset.card := by rw [hfeq]
    _ = g.ids.length := List.toFinset_card_of_nodup hwf.1
    _ = g.nodes.length := List.length_map _ _

/-- C1: on every well-formed acyclic graph, `topologicalSort` succeeds
with a sequence containing every node id exactly once, in which every
edge's source appears strictly before its target. -/
theorem C1_topologicalSort_correct (g : Graph) (hwf : WellFormed g) (hac : Acyclic g) :
    ∃ order, topologicalSort g = Except.ok order ∧ order.Nodup ∧
      (∀ x, x ∈ order ↔ x ∈ g.ids) ∧
      ∀ e ∈ g.edges, order.indexOf e.source < order.indexOf e.target := by
  have hinv := kahnFinal_inv g hwf
  have hlen := kahnFinal_length g hwf hac
  refine ⟨(kahnFinal g).result, ?_, ?_, ?_, ?_⟩
  · rw [topologicalSort_eq, if_pos hlen]
  · exact (List.nodup_append.1 hinv.nodup).1
  · intro x
    exact ⟨fun h => hinv.resultIds x h, fun h => kahnFinal_complete g hwf hac x h⟩
  · intro e he
    have htid : e.target ∈ g.ids := (hwf.2 e he).2
    obtain ⟨l1, l2, hleq, hsrc⟩ :=
      hinv.sorted e he (kahnFinal_complete g hwf hac e.target htid)
    have hnd := (List.nodup_append.1 hinv.nodup).1
    rw [hleq] at hnd ⊢
    exact indexOf_lt_of_split l1 l2 e.source e.target hnd hsrc

/-- The 3-node chain A → B → C used as a concrete run:
an api source, a transform, and an output sink. -/
def chainGraph : Graph :=
  ⟨[⟨"A", .api, .api ⟨.GET, "http://localhost/a", [], "", false⟩⟩,
    ⟨"B", .transform, .transform ⟨"data.id"⟩⟩,
    ⟨"C", .output, .output⟩],
   [⟨"A-B", "A", "B"⟩, ⟨"B-C", "B", "C"⟩]⟩

/-- The chain graph satisfies the data-model invariants. -/
theorem chainGraph_wf : WellFormed chainGraph := by
  decide

/-- The chain graph is acyclic (rank certificate). -/
theorem chainGraph_acyclic : Acyclic chainGraph :=
  acyclic_of_rank chainGraph
    (fun x => if x = "A" then 0 else if x = "B" then 1 else 2) (by decide)

/-- A concrete two-node cycle. -/
def cyclicGraph : Graph :=
  ⟨[⟨"1", .output, .output⟩, ⟨"2", .output, .output⟩],
   [⟨"1-2", "1", "2"⟩, ⟨"2-1", "2", "1"⟩]⟩

/-- The cyclic graph satisfies the data-model invariants. -/
theorem cyclicGraph_wf : WellFormed cyclicGraph := by
  decide

/-- The cyclic graph is not acyclic: `1 → 2 → 1`. -/
theorem cyclicGraph_cyclic : ¬ Acyclic cyclicGraph := by
  intro h
  apply h "1"
  exact Relation.TransGen.head
    ⟨⟨"1-2", "1", "2"⟩, by simp [cyclicGraph], rfl, rfl⟩
    (Relation.TransGen.single ⟨⟨"2-1", "2", "1"⟩, by simp [cyclicGraph], rfl, rfl⟩)

/-- Witness for C1 at the concrete chain. -/
theorem C1_topologicalSort_correct_witness :
    (WellFormed chainGraph ∧ Acyclic chainGraph) ∧
    (∃ order, topologicalSort chainGraph = Except.ok order ∧ order.Nodup ∧
      (∀ x, x ∈ order ↔ x ∈ chainGraph.ids) ∧
      ∀ e ∈ chainGraph.edges, order.indexOf e.source < order.indexOf e.target) :=
  ⟨⟨chainGraph_wf, chainGraph_acyclic⟩,
   C1_topologicalSort_correct chainGraph chainGraph_wf chainGraph_acyclic⟩

/-! ### Cycle detection: correctness of `detectCycles` -/

/-- Unfolding of one DFS expansion. -/
theorem dfs_succ (g : Graph) (fuel : Nat) (nodeId : String) (path : List String)
    (s : DfsState) :
    dfs g (fuel + 1) nodeId path s =
      if s.recStack.contains nodeId then
        (true, { s with cycles := s.cycles ++ jsSliceFromIndexOf path nodeId })
      else if s.visited.contains nodeId then
        (false, s)
      else
        let r := (g.edges.filter (fun e => e.source == nodeId)).foldl
          (fun acc e => if acc.1 then acc else dfs g fuel e.target (path ++ [nodeId]) acc.2)
          (false, { s with visited := s.visited ++ [nodeId],
                           recStack := s.recStack ++ [nodeId] })
        if r.1 then (true, r.2)
        else (false, { r.2 with recStack := r.2.recStack.erase nodeId }) := rfl

/-- A fold whose accumulator flag is already set never changes. -/
theorem dfsFold_true (g : Graph) (fuel : Nat) (u : String) (path : List String)
    (l : List Edge) (st : DfsState) :
    l.foldl (fun acc e => if acc.1 then acc else dfs g fuel e.target (path ++ [u]) acc.2)
      (true, st) = (true, st) := by
  induction l with
  | nil => rfl
  | cons e rest ih => simpa using ih

/-- The DFS only ever appends to `visited` and `cycles`. -/
theorem dfs_mono (g : Graph) :
    ∀ fuel u path s,
      (∃ tv, (dfs g fuel u path s).2.visited = s.visited ++ tv) ∧
      (∃ tc, (dfs g fuel u path s).2.cycles = s.cycles ++ tc) := by
  intro fuel
  induction fuel with
  | zero =>
    intro u path s
    exact ⟨⟨[], by simp [dfs]⟩, ⟨[], by simp [dfs]⟩⟩
  | succ n ih =>
    intro u path s
    rw [dfs_succ]
    by_cases h1 : s.recStack.contains u
    · rw [if_pos h1]
      exact ⟨⟨[], by simp⟩, ⟨jsSliceFromIndexOf path u, rfl⟩⟩
    · rw [if_neg h1]
      by_cases h2 : s.visited.contains u
      · rw [if_pos h2]
        exact ⟨⟨[], by simp⟩, ⟨[], by simp⟩⟩
      · rw [if_neg h2]
        have hfold : ∀ (l : List Edge) (acc : Bool × DfsState),
            (∃ tv, (l.foldl
                (fun acc e => if acc.1 then acc else dfs g n e.target (path ++ [u]) acc.2)
                acc).2.visited = acc.2.visited ++ tv) ∧
            (∃ tc, (l.foldl
                (fun acc e => if acc.1 then acc else dfs g n e.target (path ++ [u]) acc.2)
                acc).2.cycles = acc.2.cycles ++ tc) := by
          intro l
          induction l with
          | nil => exact fun acc => ⟨⟨[], by simp⟩, ⟨[], by simp⟩⟩
          | cons e rest ihl =>
            intro acc
            simp only [List.foldl_cons]
            by_cases hb : acc.1
            · rw [if_pos hb]
              exact ihl acc
            · rw [if_neg hb]
              obtain ⟨⟨tv1, htv1⟩, ⟨tc1, htc1⟩⟩ := ih e.target (path ++ [u]) acc.2
              obtain ⟨⟨tv2, htv2⟩, ⟨tc2, htc2⟩⟩ :=
                ihl (dfs g n e.target (path ++ [u]) acc.2)
              exact ⟨⟨tv1 ++ tv2, by rw [htv2, htv1, List.append_assoc]⟩,
                     ⟨tc1 ++ tc2, by rw [htc2, htc1, List.append_assoc]⟩⟩
        obtain ⟨⟨tv, htv⟩, ⟨tc, htc⟩⟩ := hfold (g.edges.filter (fun e => e.source == u))
          (false, { s with visited := s.visited ++ [u], recStack := s.recStack ++ [u] })
        by_cases hr : ((g.edges.filter (fun e => e.source == u)).foldl
            (fun acc e => if acc.1 then acc else dfs g n e.target (path ++ [u]) acc.2)
            (false, { s with visited := s.visited ++ [u],
                             recStack := s.recStack ++ [u] })).1
        · rw [if_pos hr]
          exact ⟨⟨[u] ++ tv, by rw [htv]; simp⟩, ⟨tc, by rw [htc]⟩⟩
        · rw [if_neg hr]
          exact ⟨⟨[u] ++ tv, by rw [htv]; simp⟩, ⟨tc, by rw [htc]⟩⟩

/-- The fold step of the DFS edge loop, named for reasoning. -/
def dfsStep (g : Graph) (fuel : Nat) (u : String) (path : List String)
    (acc : Bool × DfsState) (e : Edge) : Bool × DfsState :=
  if acc.1 then acc else dfs g fuel e.target (path ++ [u]) acc.2

/-- One DFS expansion, phrased with the named step. -/
theorem dfs_succ_eq (g : Graph) (fuel : Nat) (nodeId : String) (path : List String)
    (s : DfsState) :
    dfs g (fuel + 1) nodeId path s =
      if s.recStack.contains nodeId then
        (true, { s with cycles := s.cycles ++ jsSliceFromIndexOf path nodeId })
      else if s.visited.contains nodeId then
        (false, s)
      else
        let r := (g.edges.filter (fun e => e.source == nodeId)).foldl
          (dfsStep g fuel nodeId path)
          (false, { s with visited := s.visited ++ [nodeId],
                           recStack := s.recStack ++ [nodeId] })
        if r.1 then (true, r.2)
        else (false, { r.2 with recStack := r.2.recStack.erase nodeId }) := rfl

/-- A fold whose accumulator flag is set is the identity. -/
theorem dfsFold_acc_true (g : Graph) (fuel : Nat) (u : String) (path : List String)
    (l : List Edge) (acc : Bool × DfsState) (h : acc.1 = true) :
    l.foldl (dfsStep g fuel u path) acc = acc := by
  induction l with
  | nil => rfl
  | cons e rest ih =>
    rw [List.foldl_cons]
    unfold dfsStep
    rw [if_pos h]
    exact ih

/-- A `false` return never pushes cycles and always restores the
recursion stack. -/
theorem dfs_false_restore (g : Graph) :
    ∀ fuel u path s, (dfs g fuel u path s).1 = false →
      (dfs g fuel u path s).2.recStack = s.recStack ∧
      (dfs g fuel u path s).2.cycles = s.cycles := by
  intro fuel
  induction fuel with
  | zero =>
    intro u path s _
    exact ⟨rfl, rfl⟩
  | succ n ih =>
    intro u path s hfalse
    rw [dfs_succ_eq] at hfalse ⊢
    by_cases h1 : s.recStack.contains u
    · rw [if_pos h1] at hfalse
      simp at hfalse
    · rw [if_neg h1] at hfalse ⊢
      by_cases h2 : s.visited.contains u
      · rw [if_pos h2] at hfalse ⊢
        exact ⟨rfl, rfl⟩
      · rw [if_neg h2] at hfalse ⊢
        have hfold : ∀ (l : List Edge) (acc : Bool × DfsState),
            (l.foldl (dfsStep g n u path) acc).1 = false →
              (l.foldl (dfsStep g n u path) acc).2.recStack = acc.2.recStack ∧
              (l.foldl (dfsStep g n u path) acc).2.cycles = acc.2.cycles := by
          intro l
          induction l with
          | nil => exact fun acc _ => ⟨rfl, rfl⟩
          | cons e rest ihl =>
            intro acc hf
            rw [List.foldl_cons] at hf ⊢
            by_cases hb : acc.1
            · have hacc : dfsStep g n u path acc e = acc := by
                unfold dfsStep
                rw [if_pos hb]
              rw [hacc] at hf ⊢
              exact ihl acc hf
            · have hacc : dfsStep g n u path acc e =
                  dfs g n e.target (path ++ [u]) acc.2 := by
                unfold dfsStep
                rw [if_neg hb]
              rw [hacc] at hf ⊢
              by_cases hcb : (dfs g n e.target (path ++ [u]) acc.2).1
              · exfalso
                rw [dfsFold_acc_true g n u path rest _ hcb] at hf
                rw [hf] at hcb
                simp at hcb
              · have hcb' : (dfs g n e.target (path ++ [u]) acc.2).1 = false := by
                  simpa using hcb
                obtain ⟨hr1, hc1⟩ := ih e.target (path ++ [u]) acc.2 hcb'
                obtain ⟨hr2, hc2⟩ := ihl (dfs g n e.target (path ++ [u]) acc.2) hf
                exact ⟨hr2.trans hr1, hc2.trans hc1⟩
        set st1 : DfsState :=
          { s with visited := s.visited ++ [u], recStack := s.recStack ++ [u] } with hst1
        by_cases hr : ((g.edges.filter (fun e => e.source == u)).foldl
            (dfsStep g n u path) (false, st1)).1
        · rw [if_pos hr] at hfalse
          simp at hfalse
        · rw [if_neg hr] at hfalse ⊢
          have hr' : ((g.edges.filter (fun e => e.source == u)).foldl
              (dfsStep g n u path) (false, st1)).1 = false := by
            simpa using hr
          obtain ⟨hrs, hcs⟩ := hfold (g.edges.filter (fun e => e.source == u)) (false, st1) hr'
          constructor
          · show (((g.edges.filter (fun e => e.source == u)).foldl
                (dfsStep g n u path) (false, st1)).2.recStack).erase u = s.recStack
            rw [hrs]
            show (s.recStack ++ [u]).erase u = s.recStack
            have hu : u ∉ s.recStack := by
              intro hmem
              exact h1 (List.elem_iff.2 hmem)
            rw [List.erase_append_right _ hu]
            simp
          · exact hcs

/-- A chain from `a` through `l` ending at `b` yields a transitive step. -/
theorem transGen_of_chain (R : String → String → Prop) :
    ∀ (l : List String) (a b : String),
      List.Chain' R (a :: l ++ [b]) → Relation.TransGen R a b := by
  intro l
  induction l with
  | nil =>
    intro a b h
    exact Relation.TransGen.single (List.chain'_pair.1 h)
  | cons c t ihl =>
    intro a b h
    rw [List.cons_append, List.cons_append] at h
    obtain ⟨h1, h2⟩ := List.chain'_cons.1 h
    exact Relation.TransGen.head h1 (ihl c b (by rw [List.cons_append]; exact h2))

/-- On an acyclic graph, a clean DFS call (stack equal to the path, the
path chaining along edges into the current node) returns `false`. -/
theorem dfs_acyclic_false (g : Graph) (hac : Acyclic g) :
    ∀ fuel u path s,
      s.recStack = path →
      List.Chain' (EdgeRel g) (path ++ [u]) →
      (dfs g fuel u path s).1 = false := by
  intro fuel
  induction fuel with
  | zero =>
    intro u path s _ _
    rfl
  | succ n ih =>
    intro u path s hclean hchain
    rw [dfs_succ_eq]
    by_cases h1 : s.recStack.contains u
    · exfalso
      have hu_path : u ∈ path := by
        rw [← hclean]
        exact List.elem_iff.1 h1
      obtain ⟨p1, p2, hp⟩ := List.append_of_mem hu_path
      have hsuffix : List.Chain' (EdgeRel g) (u :: p2 ++ [u]) := by
        apply List.Chain'.suffix hchain
        rw [hp]
        exact ⟨p1, by simp⟩
      exact hac u (transGen_of_chain (EdgeRel g) p2 u u hsuffix)
    · rw [if_neg h1]
      by_cases h2 : s.visited.contains u
      · rw [if_pos h2]
      · rw [if_neg h2]
        set st1 : DfsState :=
          { s with visited := s.visited ++ [u], recStack := s.recStack ++ [u] } with hst1
        have hfold : ∀ (l : List Edge), (∀ e ∈ l, e ∈ g.edges ∧ e.source = u) →
            ∀ t : DfsState, t.recStack = path ++ [u] →
              (l.foldl (dfsStep g n u path) (false, t)).1 = false ∧
              (l.foldl (dfsStep g n u path) (false, t)).2.recStack = path ++ [u] := by
          intro l
          induction l with
          | nil => exact fun _ t ht => ⟨rfl, ht⟩
          | cons e rest ihl =>
            intro hl t ht
            rw [List.foldl_cons]
            have hacc : dfsStep g n u path (false, t) e =
                dfs g n e.target (path ++ [u]) t := by
              unfold dfsStep
              rfl
            rw [hacc]
            have hchain' : List.Chain' (EdgeRel g) ((path ++ [u]) ++ [e.target]) := by
              rw [List.chain'_append]
              refine ⟨hchain, List.chain'_singleton _, ?_⟩
              intro x hx y hy
              rw [List.getLast?_concat] at hx
              simp only [List.head?_cons, Option.mem_some_iff] at hx hy
              subst hx
              subst hy
              exact ⟨e, (hl e (by simp)).1, (hl e (by simp)).2, rfl⟩
            have hb := ih e.target (path ++ [u]) t ht hchain'
            obtain ⟨hrs, _⟩ := dfs_false_restore g n e.target (path ++ [u]) t hb
            have hpair : dfs g n e.target (path ++ [u]) t =
                (false, (dfs g n e.target (path ++ [u]) t).2) := by
              rw [← hb]
            rw [hpair]
            exact ihl (fun e' he' => hl e' (by simp [he'])) _ (by rw [hrs, ht])
        have hout : ∀ e ∈ g.edges.filter (fun e => e.source == u),
            e ∈ g.edges ∧ e.source = u := by
          intro e he
          obtain ⟨he1, he2⟩ := List.mem_filter.1 he
          exact ⟨he1, by simpa using he2⟩
        obtain ⟨hf, _⟩ := hfold (g.edges.filter (fun e => e.source == u)) hout st1
          (by rw [hst1, hclean])
        rw [if_neg (by rw [hf]; simp)]

/-- A `true` return from a clean call strictly grows the cycles list. -/
theorem dfs_true_cycles (g : Graph) :
    ∀ fuel u path s,
      s.recStack = path →
      (dfs g fuel u path s).1 = true →
      s.cycles.length < (dfs g fuel u path s).2.cycles.length := by
  intro fuel
  induction fuel with
  | zero =>
    intro u path s _ h
    simp [dfs] at h
  | succ n ih =>
    intro u path s hclean htrue
    rw [dfs_succ_eq] at htrue ⊢
    by_cases h1 : s.recStack.contains u
    · rw [if_pos h1] at htrue ⊢
      have hu_path : u ∈ path := by
        rw [← hclean]
        exact List.elem_iff.1 h1
      have hslice : jsSliceFromIndexOf path u ≠ [] := by
        unfold jsSliceFromIndexOf
        rw [if_pos (by exact List.elem_iff.2 hu_path)]
        have hidx : path.indexOf u < path.length := List.indexOf_lt_length.2 hu_path
        intro hdrop
        rw [List.drop_eq_nil_iff_le] at hdrop
        omega
      have : 0 < (jsSliceFromIndexOf path u).length :=
        List.length_pos.2 hslice
      simp only [List.length_append]
      omega
    · rw [if_neg h1] at htrue ⊢
      by_cases h2 : s.visited.contains u
      · rw [if_pos h2] at htrue
        simp at htrue
      · rw [if_neg h2] at htrue ⊢
        set st1 : DfsState :=
          { s with visited := s.visited ++ [u], recStack := s.recStack ++ [u] } with hst1
        have hfold : ∀ (l : List Edge) (t : DfsState),
            t.recStack = path ++ [u] → t.cycles = s.cycles →
            (l.foldl (dfsStep g n u path) (false, t)).1 = true →
            s.cycles.length < (l.foldl (dfsStep g n u path) (false, t)).2.cycles.length := by
          intro l
          induction l with
          | nil =>
            intro t _ _ hf
            simp at hf
          | cons e rest ihl =>
            intro t ht hc hf
            rw [List.foldl_cons] at hf ⊢
            have hacc : dfsStep g n u path (false, t) e =
                dfs g n e.target (path ++ [u]) t := by
              unfold dfsStep
              rfl
            rw [hacc] at hf ⊢
            by_cases hcb : (dfs g n e.target (path ++ [u]) t).1
            · have hgrow := ih e.target (path ++ [u]) t ht hcb
              have hpair : dfs g n e.target (path ++ [u]) t =
                  (true, (dfs g n e.target (path ++ [u]) t).2) := by
                rw [← hcb]
              rw [hpair, dfsFold_acc_true g n u path rest _ rfl]
              rw [hc] at hgrow
              exact hgrow
            · have hcb' : (dfs g n e.target (path ++ [u]) t).1 = false := by
                simpa using hcb
              obtain ⟨hrs, hcs⟩ := dfs_false_restore g n e.target (path ++ [u]) t hcb'
              have hpair : dfs g n e.target (path ++ [u]) t =
                  (false, (dfs g n e.target (path ++ [u]) t).2) := by
                rw [← hcb']
              rw [hpair] at hf ⊢
              exact ihl _ (by rw [hrs, ht]) (by rw [hcs, hc]) hf
        by_cases hr : ((g.edges.filter (fun e => e.source == u)).foldl
            (dfsStep g n u path) (false, st1)).1
        · rw [if_pos hr] at htrue ⊢
          exact hfold _ st1 (by rw [hst1, hclean]) rfl hr
        · rw [if_neg hr] at htrue
          simp at htrue

/-- A node is finished when it is visited and off the recursion stack.
Finished nodes are fully explored: DFS never expands them again. -/
def Finished (s : DfsState) (x : String) : Prop :=
  x ∈ s.visited ∧ x ∉ s.recStack

/-- A rank function witnessing that `F` is closed under edges and
strictly decreasing along them (a reverse topological certificate). -/
def GoodRank (g : Graph) (F : String → Prop) (r : String → Nat) : Prop :=
  ∀ x, F x → ∀ e ∈ g.edges, e.source = x → F e.target ∧ r e.target < r x

/-- Number of potential DFS entry ids not yet visited. -/
def unvisitedCount (g : Graph) (v : List String) : Nat :=
  ((idPool g).filter (fun c => decide (c ∉ v))).length

/-- Filters of the same list along implying predicates. -/
theorem filter_length_mono (l : List String) (p q : String → Bool)
    (h : ∀ a ∈ l, p a = true → q a = true) :
    (l.filter p).length ≤ (l.filter q).length := by
  induction l with
  | nil => simp
  | cons a rest ih =>
    have hrest := ih (fun x hx => h x (by simp [hx]))
    by_cases hp : p a
    · rw [List.filter_cons, if_pos hp, List.filter_cons, if_pos (h a (by simp) hp)]
      simpa using hrest
    · rw [List.filter_cons, if_neg (by simpa using hp)]
      by_cases hq : q a
      · rw [List.filter_cons, if_pos hq]
        simp only [List.length_cons]
        omega
      · rw [List.filter_cons, if_neg (by simpa using hq)]
        exact hrest

/-- Growing the visited set cannot increase the unvisited count. -/
theorem unvisitedCount_le (g : Graph) (v v' : List String)
    (h : ∀ x ∈ v, x ∈ v') : unvisitedCount g v' ≤ unvisitedCount g v := by
  apply filter_length_mono
  intro a _ ha
  simp only [decide_eq_true_eq] at ha ⊢
  intro hav
  exact ha (h a hav)

/-- Visiting a fresh pool id strictly decreases the unvisited count. -/
theorem unvisitedCount_decrease (g : Graph) (v : List String) (u : String)
    (hu : u ∈ idPool g) (hv : u ∉ v) :
    unvisitedCount g (v ++ [u]) + 1 ≤ unvisitedCount g v := by
  unfold unvisitedCount
  rw [filter_length_split (idPool g) (fun c => decide (c ∉ v)) (fun c => c == u)]
  have h1 : 1 ≤ ((idPool g).filter
      (fun a => decide (a ∉ v) && (a == u))).length := by
    have hmem : u ∈ (idPool g).filter (fun a => decide (a ∉ v) && (a == u)) :=
      List.mem_filter.2 ⟨hu, by simp [hv]⟩
    exact List.length_pos.2 (List.ne_nil_of_mem hmem)
  have h2 : ((idPool g).filter (fun a => decide (a ∉ v) && !(a == u))).length =
      ((idPool g).filter (fun c => decide (c ∉ v ++ [u]))).length := by
    apply congrArg
    apply List.filter_congr
    intro a _
    by_cases hau : a = u
    · subst hau
      simp [hv]
    · by_cases hav : a ∈ v <;> simp [hau, hav]
  omega

/-- Every element is bounded by the max-fold of its list. -/
theorem le_foldr_max (l : List Nat) (a : Nat) (h : a ∈ l) :
    a ≤ l.foldr max 0 := by
  induction l with
  | nil => simp at h
  | cons b rest ih =>
    rcases List.mem_cons.1 h with rfl | h
    · exact le_max_left _ _
    · exact le_trans (ih h) (le_max_right _ _)

/-- `GoodRank` only depends on the predicate extensionally. -/
theorem goodRank_congr (g : Graph) (F F' : String → Prop) (r : String → Nat)
    (h : ∀ x, F x ↔ F' x) (hg : GoodRank g F r) : GoodRank g F' r := by
  intro x hx e he hs
  obtain ⟨h1, h2⟩ := hg x ((h x).2 hx) e he hs
  exact ⟨(h e.target).1 h1, h2⟩

/-- The central DFS soundness lemma: a clean, sufficiently fuelled call
that returns `false` finishes its node, preserves finished nodes, and
extends any reverse-topological rank certificate over them. -/
theorem dfs_false_spec (g : Graph) :
    ∀ fuel u path s,
      u ∈ idPool g →
      unvisitedCount g s.visited + 1 ≤ fuel →
      s.recStack = path →
      (dfs g fuel u path s).1 = false →
      (∀ x, Finished s x → Finished (dfs g fuel u path s).2 x) ∧
      Finished (dfs g fuel u path s).2 u ∧
      (∀ r, GoodRank g (Finished s) r →
        ∃ r', (∀ x, Finished s x → r' x = r x) ∧
          GoodRank g (Finished (dfs g fuel u path s).2) r') := by
  intro fuel
  induction fuel with
  | zero =>
    intro u path s _ hfuel _ _
    omega
  | succ n ih =>
    intro u path s hu hfuel hclean hfalse
    rw [dfs_succ_eq] at hfalse ⊢
    by_cases h1 : s.recStack.contains u
    · rw [if_pos h1] at hfalse
      simp at hfalse
    · rw [if_neg h1] at hfalse ⊢
      have hu_rec : u ∉ s.recStack := fun hmem => h1 (List.elem_iff.2 hmem)
      by_cases h2 : s.visited.contains u
      · rw [if_pos h2] at hfalse ⊢
        refine ⟨fun x hx => hx, ⟨List.elem_iff.1 h2, hu_rec⟩, fun r hr => ⟨r, fun _ _ => rfl, hr⟩⟩
      · rw [if_neg h2] at hfalse ⊢
        have hu_vis : u ∉ s.visited := fun hmem => h2 (List.elem_iff.2 hmem)
        set st1 : DfsState :=
          { s with visited := s.visited ++ [u], recStack := s.recStack ++ [u] } with hst1
        have hfold : ∀ (l : List Edge), (∀ e ∈ l, e ∈ g.edges) → ∀ t : DfsState,
            t.recStack = path ++ [u] →
            unvisitedCount g t.visited + 1 ≤ n →
            (l.foldl (dfsStep g n u path) (false, t)).1 = false →
            (∀ x, Finished t x →
              Finished (l.foldl (dfsStep g n u path) (false, t)).2 x) ∧
            (∀ e ∈ l, Finished (l.foldl (dfsStep g n u path) (false, t)).2 e.target) ∧
            (∀ r, GoodRank g (Finished t) r →
              ∃ r', (∀ x, Finished t x → r' x = r x) ∧
                GoodRank g (Finished (l.foldl (dfsStep g n u path) (false, t)).2) r') ∧
            (l.foldl (dfsStep g n u path) (false, t)).2.recStack = t.recStack ∧
            (∀ x ∈ t.visited, x ∈ (l.foldl (dfsStep g n u path) (false, t)).2.visited) := by
          intro l
          induction l with
          | nil =>
            intro _ t _ _ _
            exact ⟨fun x hx => hx, by simp, fun r hr => ⟨r, fun _ _ => rfl, hr⟩, rfl,
              fun x hx => hx⟩
          | cons e rest ihl =>
            intro hl t ht hfu hf
            rw [List.foldl_cons] at hf ⊢
            have hacc : dfsStep g n u path (false, t) e =
                dfs g n e.target (path ++ [u]) t := by
              unfold dfsStep
              rfl
            rw [hacc] at hf ⊢
            by_cases hcb : (dfs g n e.target (path ++ [u]) t).1
            · exfalso
              have hpair : dfs g n e.target (path ++ [u]) t =
                  (true, (dfs g n e.target (path ++ [u]) t).2) := by
                rw [← hcb]
              rw [hpair, dfsFold_acc_true g n u path rest _ rfl] at hf
              simp at hf
            · have hcb' : (dfs g n e.target (path ++ [u]) t).1 = false := by
                simpa using hcb
              have hpair : dfs g n e.target (path ++ [u]) t =
                  (false, (dfs g n e.target (path ++ [u]) t).2) := by
                rw [← hcb']
              rw [hpair] at hf ⊢
              have htpool : e.target ∈ idPool g := by
                unfold idPool
                exact List.mem_append.2 (Or.inr (List.mem_map.2 ⟨e, hl e (by simp), rfl⟩))
              obtain ⟨hcmono, hcfin, hcrank⟩ :=
                ih e.target (path ++ [u]) t htpool hfu ht hcb'
              obtain ⟨hcrec, _⟩ := dfs_false_restore g n e.target (path ++ [u]) t hcb'
              obtain ⟨⟨tv, htv⟩, _⟩ := dfs_mono g n e.target (path ++ [u]) t
              have hvsub : ∀ x ∈ t.visited,
                  x ∈ (dfs g n e.target (path ++ [u]) t).2.visited := by
                intro x hx
                rw [htv]
                exact List.mem_append.2 (Or.inl hx)
              have hfu' : unvisitedCount g
                  (dfs g n e.target (path ++ [u]) t).2.visited + 1 ≤ n := by
                have := unvisitedCount_le g t.visited
                  (dfs g n e.target (path ++ [u]) t).2.visited hvsub
                omega
              obtain ⟨hrmono, hrfin, hrrank, hrrec, hrvis⟩ :=
                ihl (fun e' he' => hl e' (by simp [he']))
                  (dfs g n e.target (path ++ [u]) t).2 (by rw [hcrec, ht]) hfu' hf
              refine ⟨?_, ?_, ?_, ?_, ?_⟩
              · exact fun x hx => hrmono x (hcmono x hx)
              · intro e' he'
                rcases List.mem_cons.1 he' with rfl | he'
                · exact hrmono e'.target hcfin
                · exact hrfin e' he'
              · intro r hr
                obtain ⟨r1, ha1, hg1⟩ := hcrank r hr
                obtain ⟨r2, ha2, hg2⟩ := hrrank r1 hg1
                exact ⟨r2, fun x hx => (ha2 x (hcmono x hx)).trans (ha1 x hx), hg2⟩
              · rw [hrrec, hcrec]
              · exact fun x hx => hrvis x (hvsub x hx)
        have hst1rec : st1.recStack = path ++ [u] := by
          rw [hst1]
          show s.recStack ++ [u] = path ++ [u]
          rw [hclean]
        have hst1fuel : unvisitedCount g st1.visited + 1 ≤ n := by
          have := unvisitedCount_decrease g s.visited u hu hu_vis
          show unvisitedCount g (s.visited ++ [u]) + 1 ≤ n
          omega
        have hout : ∀ e ∈ g.edges.filter (fun e => e.source == u), e ∈ g.edges :=
          fun e he => (List.mem_filter.1 he).1
        by_cases hr : ((g.edges.filter (fun e => e.source == u)).foldl
            (dfsStep g n u path) (false, st1)).1
        · rw [if_pos hr] at hfalse
          simp at hfalse
        · rw [if_neg hr] at hfalse ⊢
          have hr' : ((g.edges.filter (fun e => e.source == u)).foldl
              (dfsStep g n u path) (false, st1)).1 = false := by
            simpa using hr
          obtain ⟨hmono, hfin, hrank, hrec, hvis⟩ :=
            hfold (g.edges.filter (fun e => e.source == u)) hout st1 hst1rec hst1fuel hr'
          set s2 : DfsState := ((g.edges.filter (fun e => e.source == u)).foldl
            (dfsStep g n u path) (false, st1)).2 with hs2
          have hu_path : u ∉ path := by
            rw [← hclean]
            exact hu_rec
          have hs2rec : s2.recStack = path ++ [u] := by
            rw [hrec, hst1rec]
          have herase : s2.recStack.erase u = path := by
            rw [hs2rec, List.erase_append_right _ hu_path]
            simp
          have hFst1 : ∀ x, Finished st1 x ↔ Finished s x := by
            intro x
            constructor
            · rintro ⟨hxv, hxr⟩
              have hxu : x ≠ u := by
                intro hxeq
                subst hxeq
                exact hxr (by show x ∈ s.recStack ++ [x]; simp)
              refine ⟨?_, ?_⟩
              · rcases List.mem_append.1 hxv with h | h
                · exact h
                · simp at h
                  exact absurd h hxu
              · intro hxs
                exact hxr (by show x ∈ s.recStack ++ [u]; simp [hxs])
            · rintro ⟨hxv, hxr⟩
              have hxu : x ≠ u := by
                intro hxeq
                subst hxeq
                exact hu_vis hxv
              exact ⟨by show x ∈ s.visited ++ [u]; simp [hxv],
                by show x ∉ s.recStack ++ [u]; simp [hxr, hxu]⟩
          have hu_fin2 : ¬ Finished s2 u := by
            rintro ⟨_, hur⟩
            exact hur (by rw [hs2rec]; simp)
          have htargets : ∀ e ∈ g.edges, e.source = u → Finished s2 e.target := by
            intro e he hs
            exact hfin e (List.mem_filter.2 ⟨he, by simp [hs]⟩)
          have hFsf : ∀ x,
              Finished { s2 with recStack := s2.recStack.erase u } x ↔
                (Finished s2 x ∨ (x = u ∧ x ∈ s2.visited)) := by
            intro x
            constructor
            · rintro ⟨hxv, hxr⟩
              rw [herase] at hxr
              by_cases hxu : x = u
              · exact Or.inr ⟨hxu, hxv⟩
              · refine Or.inl ⟨hxv, ?_⟩
                rw [hs2rec]
                simp [hxr, hxu]
            · rintro (⟨hxv, hxr⟩ | ⟨hxu, hxv⟩)
              · refine ⟨hxv, ?_⟩
                rw [herase]
                rw [hs2rec] at hxr
                intro hxp
                exact hxr (by simp [hxp])
              · subst hxu
                exact ⟨hxv, by rw [herase]; exact hu_path⟩
          have hu_vis2 : u ∈ s2.visited := by
            apply hvis
            show u ∈ s.visited ++ [u]
            simp
          refine ⟨?_, ?_, ?_⟩
          · intro x hx
            have hx1 : Finished st1 x := (hFst1 x).2 hx
            have hx2 : Finished s2 x := hmono x hx1
            exact (hFsf x).2 (Or.inl hx2)
          · exact (hFsf u).2 (Or.inr ⟨rfl, hu_vis2⟩)
          · intro r hr
            have hr1 : GoodRank g (Finished st1) r :=
              goodRank_congr g (Finished s) (Finished st1) r
                (fun x => (hFst1 x).symm) hr
            obtain ⟨r2, ha2, hg2⟩ := hrank r hr1
            set M : Nat := ((g.edges.filter (fun e => e.source == u)).map
              (fun e => r2 e.target)).foldr max 0 + 1 with hM
            refine ⟨fun x => if x = u then M else r2 x, ?_, ?_⟩
            · intro x hx
              dsimp only
              have hxu : x ≠ u := by
                intro hxeq
                subst hxeq
                exact hu_vis hx.1
              rw [if_neg hxu]
              exact ha2 x ((hFst1 x).2 hx)
            · intro x hx e he hs
              dsimp only
              rcases (hFsf x).1 hx with hx2 | ⟨hxu, _⟩
              · have hxu : x ≠ u := by
                  intro hxeq
                  subst hxeq
                  exact hu_fin2 hx2
                obtain ⟨htf, hlt⟩ := hg2 x hx2 e he hs
                have htfu : e.target ≠ u := by
                  intro hteq
                  rw [hteq] at htf
                  exact hu_fin2 htf
                refine ⟨(hFsf e.target).2 (Or.inl htf), ?_⟩
                rw [if_neg htfu, if_neg hxu]
                exact hlt
              · subst hxu
                have htf : Finished s2 e.target := htargets e he hs
                have htfu : e.target ≠ x := by
                  intro hteq
                  rw [hteq] at htf
                  exact hu_fin2 htf
                refine ⟨(hFsf e.target).2 (Or.inl htf), ?_⟩
                rw [if_neg htfu, if_pos rfl]
                have hmem : r2 e.target ∈ ((g.edges.filter (fun e => e.source == x)).map
                    (fun e => r2 e.target)) :=
                  List.mem_map.2 ⟨e, List.mem_filter.2 ⟨he, by simp [hs]⟩, rfl⟩
                have hle := le_foldr_max _ _ hmem
                rw [hM]
                omega

/-- The outer loop step of `detectCycles`, named for reasoning. -/
def detectStep (g : Graph) (s : DfsState) (n : NodeData) : DfsState :=
  if s.visited.contains n.id then s else (dfs g (dfsFuel g) n.id [] s).2

/-- `detectCycles` in terms of the named loop step. -/
theorem detectCycles_eq (g : Graph) :
    detectCycles g = (g.nodes.foldl (detectStep g) ⟨[], [], []⟩).cycles := rfl

/-- A visited node is skipped by the loop. -/
theorem detectStep_visited {g : Graph} {s : DfsState} {n : NodeData}
    (h : s.visited.contains n.id) : detectStep g s n = s := by
  unfold detectStep
  rw [if_pos h]

/-- A fresh node starts a DFS. -/
theorem detectStep_fresh {g : Graph} {s : DfsState} {n : NodeData}
    (h : ¬ s.visited.contains n.id) : detectStep g s n = (dfs g (dfsFuel g) n.id [] s).2 := by
  unfold detectStep
  rw [if_neg h]

/-- The node loop only appends to the cycles list. -/
theorem detectLoop_cycles_mono (g : Graph) :
    ∀ (l : List NodeData) (s : DfsState),
      ∃ tc, (l.foldl (detectStep g) s).cycles = s.cycles ++ tc := by
  intro l
  induction l with
  | nil => exact fun s => ⟨[], by simp⟩
  | cons nd rest ihl =>
    intro s
    rw [List.foldl_cons]
    by_cases hv : s.visited.contains nd.id
    · rw [detectStep_visited hv]
      exact ihl s
    · rw [detectStep_fresh hv]
      obtain ⟨_, tc1, htc1⟩ := dfs_mono g (dfsFuel g) nd.id [] s
      obtain ⟨tc2, htc2⟩ := ihl (dfs g (dfsFuel g) nd.id [] s).2
      exact ⟨tc1 ++ tc2, by rw [htc2, htc1, List.append_assoc]⟩

/-- On an acyclic graph, `detectCycles` reports nothing. -/
theorem detectCycles_acyclic (g : Graph) (hac : Acyclic g) : detectCycles g = [] := by
  have hloop : ∀ (l : List NodeData) (s : DfsState), s.recStack = [] →
      (l.foldl (detectStep g) s).cycles = s.cycles ∧
      (l.foldl (detectStep g) s).recStack = [] := by
    intro l
    induction l with
    | nil => exact fun s h => ⟨rfl, h⟩
    | cons nd rest ihl =>
      intro s hrec
      rw [List.foldl_cons]
      by_cases hv : s.visited.contains nd.id
      · rw [detectStep_visited hv]
        exact ihl s hrec
      · rw [detectStep_fresh hv]
        have hb : (dfs g (dfsFuel g) nd.id [] s).1 = false :=
          dfs_acyclic_false g hac (dfsFuel g) nd.id [] s hrec
            (by simpa using List.chain'_singleton nd.id)
        obtain ⟨hr, hc⟩ := dfs_false_restore g (dfsFuel g) nd.id [] s hb
        obtain ⟨h1, h2⟩ := ihl (dfs g (dfsFuel g) nd.id [] s).2 (by rw [hr, hrec])
        exact ⟨by rw [h1, hc], h2⟩
  rw [detectCycles_eq]
  exact (hloop g.nodes ⟨[], [], []⟩ rfl).1

/-- The standing fuel of `detectCycles` always satisfies the
sufficiency hypothesis of `dfs_false_spec`. -/
theorem dfsFuel_sufficient (g : Graph) (v : List String) :
    unvisitedCount g v + 1 ≤ dfsFuel g := by
  unfold unvisitedCount dfsFuel
  have := List.length_filter_le (fun c => decide (c ∉ v)) (idPool g)
  omega

/-- If `detectCycles` reports nothing, the graph is acyclic (assuming
the data-model invariants). -/
theorem acyclic_of_detectCycles_nil (g : Graph) (hwf : WellFormed g)
    (h : detectCycles g = []) : Acyclic g := by
  have hloop : ∀ (l : List NodeData) (s : DfsState),
      (∀ n ∈ l, n.id ∈ idPool g) →
      s.recStack = [] →
      (∃ r, GoodRank g (Finished s) r) →
      (∃ tc, (l.foldl (detectStep g) s).cycles = s.cycles ++ tc ∧ tc ≠ []) ∨
      ((l.foldl (detectStep g) s).cycles = s.cycles ∧
       (∀ n ∈ l, Finished (l.foldl (detectStep g) s) n.id) ∧
       (∀ x, Finished s x → Finished (l.foldl (detectStep g) s) x) ∧
       (∃ r, GoodRank g (Finished (l.foldl (detectStep g) s)) r)) := by
    intro l
    induction l with
    | nil =>
      intro s _ _ hrank
      exact Or.inr ⟨rfl, by simp, fun x hx => hx, hrank⟩
    | cons nd rest ihl =>
      intro s hl hrec hrank
      rw [List.foldl_cons]
      by_cases hv : s.visited.contains nd.id
      · rw [detectStep_visited hv]
        rcases ihl s (fun n hn => hl n (by simp [hn])) hrec hrank with hleft | hright
        · exact Or.inl hleft
        · refine Or.inr ⟨hright.1, ?_, hright.2.2.1, hright.2.2.2⟩
          intro n hn
          rcases List.mem_cons.1 hn with rfl | hn
          · exact hright.2.2.1 n.id ⟨List.elem_iff.1 hv, by rw [hrec]; simp⟩
          · exact hright.2.1 n hn
      · rw [detectStep_fresh hv]
        by_cases hb : (dfs g (dfsFuel g) nd.id [] s).1
        · left
          have hgrow := dfs_true_cycles g (dfsFuel g) nd.id [] s hrec hb
          obtain ⟨_, tc1, htc1⟩ := dfs_mono g (dfsFuel g) nd.id [] s
          obtain ⟨tc2, htc2⟩ := detectLoop_cycles_mono g rest (dfs g (dfsFuel g) nd.id [] s).2
          refine ⟨tc1 ++ tc2, by rw [htc2, htc1, List.append_assoc], ?_⟩
          intro hnil
          have : tc1 = [] := by
            cases tc1 with
            | nil => rfl
            | cons a t => simp at hnil
          rw [this] at htc1
          simp at htc1
          rw [htc1] at hgrow
          omega
        · have hb' : (dfs g (dfsFuel g) nd.id [] s).1 = false := by
            simpa using hb
          obtain ⟨hmono, hufin, hrext⟩ :=
            dfs_false_spec g (dfsFuel g) nd.id [] s (hl nd (by simp))
              (dfsFuel_sufficient g s.visited) hrec hb'
          obtain ⟨hr0, hc0⟩ := dfs_false_restore g (dfsFuel g) nd.id [] s hb'
          obtain ⟨r, hr⟩ := hrank
          obtain ⟨r1, _, hg1⟩ := hrext r hr
          rcases ihl (dfs g (dfsFuel g) nd.id [] s).2 (fun n hn => hl n (by simp [hn]))
            (by rw [hr0, hrec]) ⟨r1, hg1⟩ with hleft | hright
          · left
            obtain ⟨tc, htc, hne⟩ := hleft
            exact ⟨tc, by rw [htc, hc0], hne⟩
          · refine Or.inr ⟨by rw [hright.1, hc0], ?_, ?_, hright.2.2.2⟩
            · intro n hn
              rcases List.mem_cons.1 hn with rfl | hn
              · exact hright.2.2.1 n.id hufin
              · exact hright.2.1 n hn
            · exact fun x hx => hright.2.2.1 x (hmono x hx)
  have hids_pool : ∀ n ∈ g.nodes, n.id ∈ idPool g := by
    intro n hn
    unfold idPool
    exact List.mem_append.2 (Or.inl (List.mem_map.2 ⟨n, hn, rfl⟩))
  have hrank0 : ∃ r, GoodRank g (Finished ⟨[], [], []⟩) r := by
    refine ⟨fun _ => 0, ?_⟩
    intro x hx
    obtain ⟨hxv, _⟩ := hx
    simp at hxv
  rcases hloop g.nodes ⟨[], [], []⟩ hids_pool rfl hrank0 with hleft | hright
  · exfalso
    obtain ⟨tc, htc, hne⟩ := hleft
    rw [detectCycles_eq] at h
    rw [h] at htc
    simp at htc
    exact hne htc
  · obtain ⟨_, hfinAll, _, r, hrk⟩ := hright
    intro x hx
    obtain ⟨b, ⟨e, he, hs, _⟩, _⟩ := Relation.TransGen.head'_iff.1 hx
    have hxid : x ∈ g.ids := hs ▸ (hwf.2 e he).1
    obtain ⟨n, hn, hnx⟩ := List.mem_map.1 hxid
    have hxfin : Finished (g.nodes.foldl (detectStep g) ⟨[], [], []⟩) x :=
      hnx ▸ hfinAll n hn
    have hdec : ∀ a c, Relation.TransGen (EdgeRel g) a c →
        Finished (g.nodes.foldl (detectStep g) ⟨[], [], []⟩) a →
        Finished (g.nodes.foldl (detectStep g) ⟨[], [], []⟩) c ∧ r c < r a := by
      intro a c hac
      induction hac with
      | single h1 =>
        intro hfa
        obtain ⟨e1, he1, hs1, ht1⟩ := h1
        have := hrk a hfa e1 he1 hs1
        exact ⟨ht1 ▸ this.1, ht1 ▸ this.2⟩
      | tail _ h1 ihh =>
        intro hfa
        obtain ⟨hfc, hlt⟩ := ihh hfa
        obtain ⟨e1, he1, hs1, ht1⟩ := h1
        have := hrk _ hfc e1 he1 hs1
        exact ⟨ht1 ▸ this.1, lt_trans (ht1 ▸ this.2) hlt⟩
    exact absurd (hdec x x hx hxfin).2 (lt_irrefl _)

/-! ### Cyclic graphs: the short Kahn result and the reported cycle ids -/

/-- On a well-formed graph a full-length Kahn result certifies
acyclicity, so a cyclic graph leaves the result short of the node
count. -/
theorem kahnFinal_short_of_cyclic (g : Graph) (hwf : WellFormed g)
    (hcyc : ¬ Acyclic g) :
    (kahnFinal g).result.length ≠ g.nodes.length := by
  intro hlen
  apply hcyc
  have hinv := kahnFinal_inv g hwf
  have hnd : (kahnFinal g).result.Nodup := (List.nodup_append.1 hinv.nodup).1
  have hsub : (kahnFinal g).result.toFinset ⊆ g.ids.toFinset := by
    intro x hx
    exact List.mem_toFinset.2 (hinv.resultIds x (List.mem_toFinset.1 hx))
  have hidlen : g.ids.length = g.nodes.length := List.length_map _ _
  have hcard : g.ids.toFinset.card ≤ (kahnFinal g).result.toFinset.card := by
    rw [List.toFinset_card_of_nodup hnd, List.toFinset_card_of_nodup hwf.1, hlen, hidlen]
  have hfeq : (kahnFinal g).result.toFinset = g.ids.toFinset :=
    Finset.eq_of_subset_of_card_le hsub hcard
  have hall : ∀ x ∈ g.ids, x ∈ (kahnFinal g).result := by
    intro x hx
    exact List.mem_toFinset.1 (hfeq ▸ List.mem_toFinset.2 hx)
  apply acyclic_of_rank g (fun x => (kahnFinal g).result.indexOf x)
  intro e he
  obtain ⟨l1, l2, hleq, hsrc⟩ :=
    hinv.sorted e he (hall e.target (hwf.2 e he).2)
  show (kahnFinal g).result.indexOf e.source < (kahnFinal g).result.indexOf e.target
  rw [hleq] at hnd ⊢
  exact indexOf_lt_of_split l1 l2 e.source e.target hnd hsrc

/-- Every id the DFS appends to `cycles` comes from the running path, so
on a well-formed graph all ids it ever reports are node ids. -/
theorem dfs_cycles_ids (g : Graph) (hwf : WellFormed g) :
    ∀ fuel u path (s : DfsState), u ∈ g.ids → (∀ x ∈ path, x ∈ g.ids) →
      (∀ x ∈ s.cycles, x ∈ g.ids) →
      ∀ x ∈ (dfs g fuel u path s).2.cycles, x ∈ g.ids := by
  intro fuel
  induction fuel with
  | zero =>
    intro u path s _ _ hs x hx
    exact hs x hx
  | succ n ih =>
    intro u path s hu hpath hs
    rw [dfs_succ]
    by_cases h1 : s.recStack.contains u
    · rw [if_pos h1]
      intro x hx
      rcases List.mem_append.1 hx with h | h
      · exact hs x h
      · refine hpath x ?_
        unfold jsSliceFromIndexOf at h
        by_cases hc : path.contains u
        · rw [if_pos hc] at h
          exact List.mem_of_mem_drop h
        · rw [if_neg hc] at h
          exact List.mem_of_mem_drop h
    · rw [if_neg h1]
      by_cases h2 : s.visited.contains u
      · rw [if_pos h2]
        exact fun x hx => hs x hx
      · rw [if_neg h2]
        have hpath' : ∀ x ∈ path ++ [u], x ∈ g.ids := by
          intro x hx
          rcases List.mem_append.1 hx with h | h
          · exact hpath x h
          · rw [List.mem_singleton.1 h]
            exact hu
        have hfold : ∀ (l : List Edge), (∀ e ∈ l, e ∈ g.edges) →
            ∀ (acc : Bool × DfsState), (∀ x ∈ acc.2.cycles, x ∈ g.ids) →
            ∀ x ∈ (l.foldl
              (fun acc e => if acc.1 then acc else dfs g n e.target (path ++ [u]) acc.2)
              acc).2.cycles, x ∈ g.ids := by
          intro l
          induction l with
          | nil => exact fun _ acc hacc => hacc
          | cons e rest ihl =>
            intro hl acc hacc
            simp only [List.foldl_cons]
            by_cases hb : acc.1
            · rw [if_pos hb]
              exact ihl (fun e' he' => hl e' (by simp [he'])) acc hacc
            · rw [if_neg hb]
              refine ihl (fun e' he' => hl e' (by simp [he'])) _ ?_
              have htid : e.target ∈ g.ids := (hwf.2 e (hl e (by simp))).2
              exact ih e.target (path ++ [u]) acc.2 htid hpath' hacc
        have hmain := hfold (g.edges.filter (fun e => e.source == u))
          (fun e he => (List.mem_filter.1 he).1)
          (false, { s with visited := s.visited ++ [u], recStack := s.recStack ++ [u] })
          hs
        by_cases hr : ((g.edges.filter (fun e => e.source == u)).foldl
            (fun acc e => if acc.1 then acc else dfs g n e.target (path ++ [u]) acc.2)
            (false, { s with visited := s.visited ++ [u],
                             recStack := s.recStack ++ [u] })).1
        · rw [if_pos hr]
          exact hmain
        · rw [if_neg hr]
          exact hmain

/-- Every id reported by `detectCycles` on a well-formed graph is a node
id of the graph. -/
theorem detectCycles_ids (g : Graph) (hwf : WellFormed g) :
    ∀ x ∈ detectCycles g, x ∈ g.ids := by
  rw [detectCycles_eq]
  have hloop : ∀ (l : List NodeData), (∀ n ∈ l, n ∈ g.nodes) →
      ∀ (s : DfsState), (∀ x ∈ s.cycles, x ∈ g.ids) →
      ∀ x ∈ (l.foldl (detectStep g) s).cycles, x ∈ g.ids := by
    intro l
    induction l with
    | nil => exact fun _ s hs => hs
    | cons nd rest ihl =>
      intro hl s hs
      rw [List.foldl_cons]
      refine ihl (fun n hn => hl n (by simp [hn])) _ ?_
      by_cases hv : s.visited.contains nd.id
      · rw [detectStep_visited hv]
        exact hs
      · rw [detectStep_fresh hv]
        have hid : nd.id ∈ g.ids :=
          List.mem_map.2 ⟨nd, hl nd (by simp), rfl⟩
        exact dfs_cycles_ids g hwf (dfsFuel g) nd.id [] s hid (by simp) hs
  exact hloop g.nodes (fun n hn => hn) ⟨[], [], []⟩ (by simp)

/-- C2: on every well-formed graph, if the graph contains a cycle then
`topologicalSort` fails with the cyclic-graph error (the Kahn result is
shorter than the node count) and `detectCycles` returns a non-empty list
of node ids of the graph; if the graph is acyclic then `detectCycles`
returns the empty list and `topologicalSort` does not fail. -/
theorem C2_cycle_handling (g : Graph) (hwf : WellFormed g) :
    (¬ Acyclic g →
      topologicalSort g = Except.error "Graph contains cycles" ∧
      detectCycles g ≠ [] ∧ ∀ x ∈ detectCycles g, x ∈ g.ids) ∧
    (Acyclic g →
      detectCycles g = [] ∧ ∃ order, topologicalSort g = Except.ok order) := by
  constructor
  · intro hcyc
    refine ⟨?_, ?_, detectCycles_ids g hwf⟩
    · rw [topologicalSort_eq, if_neg (kahnFinal_short_of_cyclic g hwf hcyc)]
    · intro h
      exact hcyc (acyclic_of_detectCycles_nil g hwf h)
  · intro hac
    refine ⟨detectCycles_acyclic g hac, (kahnFinal g).result, ?_⟩
    rw [topologicalSort_eq, if_pos (kahnFinal_length g hwf hac)]

/-- Witness for C2 at the concrete two-node cycle and the concrete
acyclic chain. -/
theorem C2_cycle_handling_witness :
    (WellFormed cyclicGraph ∧
      topologicalSort cyclicGraph = Except.error "Graph contains cycles" ∧
      detectCycles cyclicGraph ≠ [] ∧
      (∀ x ∈ detectCycles cyclicGraph, x ∈ cyclicGraph.ids)) ∧
    (WellFormed chainGraph ∧
      detectCycles chainGraph = [] ∧
      ∃ order, topologicalSort chainGraph = Except.ok order) :=
  ⟨⟨cyclicGraph_wf,
    (C2_cycle_handling cyclicGraph cyclicGraph_wf).1 cyclicGraph_cyclic⟩,
   ⟨chainGraph_wf,
    (C2_cycle_handling chainGraph chainGraph_wf).2 chainGraph_acyclic⟩⟩

/-! ### Claim C3: the pre-flight cycle abort -/

/-- When `detectCycles` reports anything, `executeGraph` throws before
doing anything else: no callback fires and no context is built. -/
theorem executeGraph_cyclic (o : Oracles) (g : Graph) (hne : detectCycles g ≠ []) :
    executeGraph o g = (Except.error (cyclesMessage (detectCycles g)), []) := by
  have hlen : 0 < (detectCycles g).length := List.length_pos.2 hne
  simp only [executeGraph]
  rw [if_pos hlen]

/-- An oracle assignment under which every external call fails; used to
exhibit runs that never reach an external effect. -/
def nullOracles : Oracles :=
  { http := fun _ => Except.error "network error",
    eval := fun _ _ => Except.error "eval error" }

/-- C3: on a well-formed cyclic graph the whole run aborts before any
node executes: `executeGraph` returns the cycle error naming the detected
node ids, and — for every oracle assignment, so no executor can have been
consulted — the callback trace is empty; in particular no node-update
callback fires and no context is returned. -/
theorem C3_cyclic_aborts_run (g : Graph) (hwf : WellFormed g) (hcyc : ¬ Acyclic g) :
    detectCycles g ≠ [] ∧
    ∀ o : Oracles,
      (executeGraph o g).1 = Except.error (cyclesMessage (detectCycles g)) ∧
      (executeGraph o g).2 = [] := by
  have hne : detectCycles g ≠ [] := fun h => hcyc (acyclic_of_detectCycles_nil g hwf h)
  refine ⟨hne, fun o => ?_⟩
  rw [executeGraph_cyclic o g hne]
  exact ⟨rfl, rfl⟩

/-- Witness for C3 at the concrete two-node cycle under the failing
oracle. -/
theorem C3_cyclic_aborts_run_witness :
    (WellFormed cyclicGraph ∧ ¬ Acyclic cyclicGraph) ∧
    detectCycles cyclicGraph ≠ [] ∧
    (executeGraph nullOracles cyclicGraph).1 =
      Except.error (cyclesMessage (detectCycles cyclicGraph)) ∧
    (executeGraph nullOracles cyclicGraph).2 = [] :=
  ⟨⟨cyclicGraph_wf, cyclicGraph_cyclic⟩,
   (C3_cyclic_aborts_run cyclicGraph cyclicGraph_wf cyclicGraph_cyclic).1,
   (C3_cyclic_aborts_run cyclicGraph cyclicGraph_wf cyclicGraph_cyclic).2 nullOracles⟩

/-! ### The execution loop: per-step trace and context facts -/

/-- `attemptedNodes` distributes over trace concatenation. -/
theorem attemptedNodes_append (a b : List Event) :
    attemptedNodes (a ++ b) = attemptedNodes a ++ attemptedNodes b := by
  unfold attemptedNodes
  exact List.filterMap_append a b _

/-- The executor dispatch emits only log events, never a node update. -/
theorem attemptedNodes_runNode (o : Oracles) (node : NodeData) (ctx : ExecutionContext) :
    attemptedNodes (runNode o node ctx).2 = [] := by
  obtain ⟨nid, ntyp, ndata⟩ := node
  cases ntyp with
  | api =>
    cases ndata with
    | api d =>
      cases hh : o.http (apiRequest d ctx) with
      | ok resp => simp [runNode, executeApiNode, hh, attemptedNodes]
      | error e => simp [runNode, executeApiNode, hh, attemptedNodes]
    | transform d => rfl
    | output => rfl
  | transform =>
    cases ndata with
    | api d => rfl
    | transform d =>
      cases hh : o.eval d.expression (getNodeInputData nid ctx) with
      | ok v => simp [runNode, executeTransformNode, hh, attemptedNodes]
      | error e => simp [runNode, executeTransformNode, hh, attemptedNodes]
    | output => rfl
  | output => rfl

/-- A node id of a well-formed graph is found by the loop's lookup. -/
theorem find?_of_mem_ids (g : Graph) (x : String) (hx : x ∈ g.ids) :
    ∃ node, g.nodes.find? (fun n => n.id == x) = some node ∧ node.id = x := by
  obtain ⟨n, hn, hnx⟩ := List.mem_map.1 hx
  have hsome : (g.nodes.find? (fun n => n.id == x)).isSome := by
    rw [List.find?_isSome]
    exact ⟨n, hn, by simp [hnx]⟩
  obtain ⟨node, hnode⟩ := Option.isSome_iff_exists.1 hsome
  refine ⟨node, hnode, ?_⟩
  have := List.find?_some hnode
  simpa using this

/-- An id absent from the graph is skipped by the loop. -/
theorem execStep_skip (o : Oracles) (g : Graph) (acc : ExecutionContext × List Event)
    (x : String) (hfind : g.nodes.find? (fun n => n.id == x) = none) :
    execStep o g acc x = acc := by
  unfold execStep
  rw [hfind]

/-- The empty trace attempts nothing. -/
theorem attemptedNodes_nil : attemptedNodes [] = [] := rfl

/-- A `running` update heads the attempted ids. -/
theorem attemptedNodes_cons_run (x : String) (out : Option Value) (err : Option String)
    (tr : List Event) :
    attemptedNodes (Event.update x .running out err :: tr) = x :: attemptedNodes tr := rfl

/-- A log event is not an attempt. -/
theorem attemptedNodes_cons_log (lvl : LogLevel) (msg : String) (tr : List Event) :
    attemptedNodes (Event.log lvl msg :: tr) = attemptedNodes tr := rfl

/-- A success update is not an attempt. -/
theorem attemptedNodes_cons_succ (x : String) (out : Option Value) (err : Option String)
    (tr : List Event) :
    attemptedNodes (Event.update x .success out err :: tr) = attemptedNodes tr := rfl

/-- An error update is not an attempt. -/
theorem attemptedNodes_cons_err (x : String) (out : Option Value) (err : Option String)
    (tr : List Event) :
    attemptedNodes (Event.update x .error out err :: tr) = attemptedNodes tr := rfl

/-- One loop iteration on a found node issues a `running` update for
exactly that node and nothing else. -/
theorem execStep_attempted (o : Oracles) (g : Graph) (acc : ExecutionContext × List Event)
    (x : String) (node : NodeData)
    (hfind : g.nodes.find? (fun n => n.id == x) = some node) :
    attemptedNodes (execStep o g acc x).2 = attemptedNodes acc.2 ++ [x] := by
  unfold execStep
  rw [hfind]
  dsimp only
  cases hr : (runNode o node
      { acc.1 with nodeStatuses := setKey acc.1.nodeStatuses x .running }).1 with
  | ok output =>
    simp [attemptedNodes_append, attemptedNodes_runNode, attemptedNodes_nil,
      attemptedNodes_cons_run, attemptedNodes_cons_log, attemptedNodes_cons_succ]
  | error msg =>
    simp [attemptedNodes_append, attemptedNodes_runNode, attemptedNodes_nil,
      attemptedNodes_cons_run, attemptedNodes_cons_log, attemptedNodes_cons_err]

/-- Writing a record key makes it readable with the written value. -/
theorem getKey?_setKey_self (l : List (String × α)) (k : String) (v : α) :
    getKey? (setKey l k v) k = some v := by
  induction l with
  | nil => simp [setKey, getKey?]
  | cons p rest ih =>
    obtain ⟨k0, v0⟩ := p
    by_cases h : k0 = k
    · simp [setKey, getKey?, h]
    · simp [setKey, getKey?, h, ih]

/-- Writing one record key leaves every other key unchanged. -/
theorem getKey?_setKey_ne (l : List (String × α)) (k k' : String) (v : α)
    (h : k' ≠ k) : getKey? (setKey l k v) k' = getKey? l k' := by
  induction l with
  | nil => simp [setKey, getKey?, Ne.symm h]
  | cons p rest ih =>
    obtain ⟨k0, v0⟩ := p
    by_cases h0 : k0 = k
    · subst h0
      have hne : k0 ≠ k' := fun hh => h hh.symm
      simp [setKey, getKey?, hne]
    · simp [setKey, getKey?, h0, ih]

/-- After one iteration on a found node whose output and error slots are
still empty, that node's context entries are terminal: a success stores
the output and no error, a failure stores the message and no output. -/
theorem execStep_ctx_self (o : Oracles) (g : Graph) (acc : ExecutionContext × List Event)
    (x : String) (node : NodeData)
    (hfind : g.nodes.find? (fun n => n.id == x) = some node)
    (hout : getKey? acc.1.nodeOutputs x = none)
    (herr : getKey? acc.1.nodeErrors x = none) :
    (getKey? (execStep o g acc x).1.nodeStatuses x = some NodeStatus.success ∨
     getKey? (execStep o g acc x).1.nodeStatuses x = some NodeStatus.error) ∧
    ((getKey? (execStep o g acc x).1.nodeOutputs x).isSome ↔
      getKey? (execStep o g acc x).1.nodeStatuses x = some NodeStatus.success) ∧
    ((getKey? (execStep o g acc x).1.nodeErrors x).isSome ↔
      getKey? (execStep o g acc x).1.nodeStatuses x = some NodeStatus.error) := by
  unfold execStep
  rw [hfind]
  dsimp only
  cases hr : (runNode o node
      { acc.1 with nodeStatuses := setKey acc.1.nodeStatuses x .running }).1 with
  | ok output => simp [getKey?_setKey_self, herr]
  | error msg => simp [getKey?_setKey_self, hout]

/-- One iteration touches no context entry of any other id. -/
theorem execStep_ctx_other (o : Oracles) (g : Graph) (acc : ExecutionContext × List Event)
    (x y : String) (hne : y ≠ x) :
    getKey? (execStep o g acc x).1.nodeStatuses y = getKey? acc.1.nodeStatuses y ∧
    getKey? (execStep o g acc x).1.nodeOutputs y = getKey? acc.1.nodeOutputs y ∧
    getKey? (execStep o g acc x).1.nodeErrors y = getKey? acc.1.nodeErrors y := by
  unfold execStep
  cases hfind : g.nodes.find? (fun n => n.id == x) with
  | none => exact ⟨rfl, rfl, rfl⟩
  | some node =>
    dsimp only
    cases hr : (runNode o node
        { acc.1 with nodeStatuses := setKey acc.1.nodeStatuses x .running }).1 with
    | ok output => simp [getKey?_setKey_ne, hne]
    | error msg => simp [getKey?_setKey_ne, hne]

/-- The attempted ids of the whole loop: the incoming trace's attempts
followed by every id of the order, in order. -/
theorem execFold_attempted (o : Oracles) (g : Graph) :
    ∀ (order : List String), (∀ x ∈ order, x ∈ g.ids) →
      ∀ acc : ExecutionContext × List Event,
        attemptedNodes (order.foldl (execStep o g) acc).2 =
          attemptedNodes acc.2 ++ order := by
  intro order
  induction order with
  | nil =>
    intro _ acc
    simp
  | cons x rest ih =>
    intro hord acc
    rw [List.foldl_cons]
    obtain ⟨node, hfind, _⟩ := find?_of_mem_ids g x (hord x (by simp))
    rw [ih (fun y hy => hord y (by simp [hy])) (execStep o g acc x),
      execStep_attempted o g acc x node hfind]
    simp

/-- The loop leaves the context entries of ids outside the order
untouched. -/
theorem execFold_ctx_other (o : Oracles) (g : Graph) :
    ∀ (order : List String) (y : String), y ∉ order →
      ∀ acc : ExecutionContext × List Event,
        getKey? (order.foldl (execStep o g) acc).1.nodeStatuses y =
          getKey? acc.1.nodeStatuses y ∧
        getKey? (order.foldl (execStep o g) acc).1.nodeOutputs y =
          getKey? acc.1.nodeOutputs y ∧
        getKey? (order.foldl (execStep o g) acc).1.nodeErrors y =
          getKey? acc.1.nodeErrors y := by
  intro order
  induction order with
  | nil => exact fun y _ acc => ⟨rfl, rfl, rfl⟩
  | cons x rest ih =>
    intro y hy acc
    rw [List.foldl_cons]
    have hyx : y ≠ x := fun h => hy (by simp [h])
    obtain ⟨h1, h2, h3⟩ := execStep_ctx_other o g acc x y hyx
    obtain ⟨h1', h2', h3'⟩ := ih y (fun h => hy (by simp [h])) (execStep o g acc x)
    exact ⟨by rw [h1', h1], by rw [h2', h2], by rw [h3', h3]⟩

/-- After the loop runs a duplicate-free order of known ids from a state
in which those ids are untouched, every id of the order has a terminal
status, an output entry exactly on success, and an error entry exactly
on failure. -/
theorem execFold_ctx (o : Oracles) (g : Graph) :
    ∀ (order : List String), order.Nodup → (∀ x ∈ order, x ∈ g.ids) →
      ∀ acc : ExecutionContext × List Event,
        (∀ x ∈ order, getKey? acc.1.nodeStatuses x = none ∧
          getKey? acc.1.nodeOutputs x = none ∧ getKey? acc.1.nodeErrors x = none) →
        ∀ x ∈ order,
          (getKey? (order.foldl (execStep o g) acc).1.nodeStatuses x =
              some NodeStatus.success ∨
           getKey? (order.foldl (execStep o g) acc).1.nodeStatuses x =
              some NodeStatus.error) ∧
          ((getKey? (order.foldl (execStep o g) acc).1.nodeOutputs x).isSome ↔
            getKey? (order.foldl (execStep o g) acc).1.nodeStatuses x =
              some NodeStatus.success) ∧
          ((getKey? (order.foldl (execStep o g) acc).1.nodeErrors x).isSome ↔
            getKey? (order.foldl (execStep o g) acc).1.nodeStatuses x =
              some NodeStatus.error) := by
  intro order
  induction order with
  | nil =>
    intro _ _ _ _ x hx
    simp at hx
  | cons z rest ih =>
    intro hnd hord acc hfresh x hx
    rw [List.foldl_cons]
    have hznr : z ∉ rest := (List.nodup_cons.1 hnd).1
    rcases List.mem_cons.1 hx with rfl | hxr
    · obtain ⟨node, hfind, _⟩ := find?_of_mem_ids g x (hord x (by simp))
      obtain ⟨_, hout, herr⟩ := hfresh x (by simp)
      have hterm := execStep_ctx_self o g acc x node hfind hout herr
      obtain ⟨p1, p2, p3⟩ := execFold_ctx_other o g rest x hznr (execStep o g acc x)
      rw [p1, p2, p3]
      exact hterm
    · refine ih (List.nodup_cons.1 hnd).2 (fun y hy => hord y (by simp [hy]))
        (execStep o g acc z) ?_ x hxr
      intro y hy
      have hyz : y ≠ z := fun h => hznr (h ▸ hy)
      obtain ⟨q1, q2, q3⟩ := execStep_ctx_other o g acc z y hyz
      obtain ⟨f1, f2, f3⟩ := hfresh y (by simp [hy])
      exact ⟨by rw [q1, f1], by rw [q2, f2], by rw [q3, f3]⟩

/-- The opening log entry of a run over a given execution order. -/
def startTrace (g : Graph) (order : List String) : List Event :=
  [Event.log .info ("Starting execution of " ++ toString g.nodes.length ++
    " nodes in order: " ++ String.intercalate ", " order)]

/-- On a graph that passes the pre-flight checks, `executeGraph` is the
loop fold over the sorted order, wrapped by the start and completion
logs. -/
theorem executeGraph_run (o : Oracles) (g : Graph) (hnil : detectCycles g = [])
    (order : List String) (hord : topologicalSort g = Except.ok order) :
    executeGraph o g =
      (Except.ok (order.foldl (execStep o g) (⟨[], [], []⟩, startTrace g order)).1,
       (order.foldl (execStep o g) (⟨[], [], []⟩, startTrace g order)).2 ++
         [Event.log .info "Graph execution completed"]) := by
  simp only [executeGraph]
  rw [hnil, hord]
  rfl

/-- The start log attempts nothing. -/
theorem attemptedNodes_startTrace (g : Graph) (order : List String) :
    attemptedNodes (startTrace g order) = [] := rfl

/-- C9: the loop has no cancellation point — for every oracle assignment
and hence every caller behaviour, a run over a well-formed acyclic graph
issues a `running` update for every id of the computed execution order;
no check between iterations can stop a later node from starting, because
`executeGraph` consults no run-cancelled flag. -/
theorem C9_no_cancellation_point (o : Oracles) (g : Graph) (hwf : WellFormed g)
    (hac : Acyclic g) :
    ∃ order, topologicalSort g = Except.ok order ∧ (∀ x, x ∈ order ↔ x ∈ g.ids) ∧
      attemptedNodes (executeGraph o g).2 = order := by
  have hord : topologicalSort g = Except.ok (kahnFinal g).result := by
    rw [topologicalSort_eq, if_pos (kahnFinal_length g hwf hac)]
  have hmem : ∀ x, x ∈ (kahnFinal g).result ↔ x ∈ g.ids :=
    fun x => ⟨fun h => (kahnFinal_inv g hwf).resultIds x h,
              fun h => kahnFinal_complete g hwf hac x h⟩
  have hfold := execFold_attempted o g (kahnFinal g).result (fun x hx => (hmem x).1 hx)
    (⟨[], [], []⟩, startTrace g (kahnFinal g).result)
  refine ⟨(kahnFinal g).result, hord, hmem, ?_⟩
  rw [executeGraph_run o g (detectCycles_acyclic g hac) _ hord]
  dsimp only
  rw [attemptedNodes_append, hfold, attemptedNodes_startTrace]
  simp [attemptedNodes_cons_log, attemptedNodes_nil]

/-- Witness for C9 at the chain under the failing oracle. -/
theorem C9_no_cancellation_point_witness :
    (WellFormed chainGraph ∧ Acyclic chainGraph) ∧
    ∃ order, topologicalSort chainGraph = Except.ok order ∧
      (∀ x, x ∈ order ↔ x ∈ chainGraph.ids) ∧
      attemptedNodes (executeGraph nullOracles chainGraph).2 = order :=
  ⟨⟨chainGraph_wf, chainGraph_acyclic⟩,
   C9_no_cancellation_point nullOracles chainGraph chainGraph_wf chainGraph_acyclic⟩

/-- C10: when a run over a well-formed acyclic graph returns normally,
the returned context gives every node id of the graph a terminal status
(`success` or `error`), holds an output entry for an id exactly when its
status is `success`, and holds an error entry exactly when its status is
`error`. -/
theorem C10_context_invariants (o : Oracles) (g : Graph) (hwf : WellFormed g)
    (hac : Acyclic g) :
    ∃ ctx, (executeGraph o g).1 = Except.ok ctx ∧
      ∀ x ∈ g.ids,
        (getKey? ctx.nodeStatuses x = some NodeStatus.success ∨
         getKey? ctx.nodeStatuses x = some NodeStatus.error) ∧
        ((getKey? ctx.nodeOutputs x).isSome ↔
          getKey? ctx.nodeStatuses x = some NodeStatus.success) ∧
        ((getKey? ctx.nodeErrors x).isSome ↔
          getKey? ctx.nodeStatuses x = some NodeStatus.error) := by
  have hord : topologicalSort g = Except.ok (kahnFinal g).result := by
    rw [topologicalSort_eq, if_pos (kahnFinal_length g hwf hac)]
  have hrun := executeGraph_run o g (detectCycles_acyclic g hac) _ hord
  refine ⟨((kahnFinal g).result.foldl (execStep o g)
      (⟨[], [], []⟩, startTrace g (kahnFinal g).result)).1, ?_, ?_⟩
  · rw [hrun]
  · intro x hx
    exact execFold_ctx o g (kahnFinal g).result
      (List.nodup_append.1 (kahnFinal_inv g hwf).nodup).1
      (fun y hy => (kahnFinal_inv g hwf).resultIds y hy)
      (⟨[], [], []⟩, startTrace g (kahnFinal g).result)
      (fun y _ => ⟨rfl, rfl, rfl⟩)
      x (kahnFinal_complete g hwf hac x hx)

/-- Witness for C10 at the chain under the failing oracle. -/
theorem C10_context_invariants_witness :
    (WellFormed chainGraph ∧ Acyclic chainGraph) ∧
    ∃ ctx, (executeGraph nullOracles chainGraph).1 = Except.ok ctx ∧
      ∀ x ∈ chainGraph.ids,
        (getKey? ctx.nodeStatuses x = some NodeStatus.success ∨
         getKey? ctx.nodeStatuses x = some NodeStatus.error) ∧
        ((getKey? ctx.nodeOutputs x).isSome ↔
          getKey? ctx.nodeStatuses x = some NodeStatus.success) ∧
        ((getKey? ctx.nodeErrors x).isSome ↔
          getKey? ctx.nodeStatuses x = some NodeStatus.error) :=
  ⟨⟨chainGraph_wf, chainGraph_acyclic⟩,
   C10_context_invariants nullOracles chainGraph chainGraph_wf chainGraph_acyclic⟩

/-- The oracle assignment of the forced-failure scenario: every HTTP
call yields a 200 response with body `{id: 7}`, and every transform
evaluation fails with "forced failure" — B's executor is forced to
fail while A's succeeds. -/
def c4Oracles : Oracles :=
  { http := fun _ => Except.ok
      ⟨200, "OK", [], Value.obj (fieldsOfList [("id", Value.num 7)])⟩,
    eval := fun _ _ => Except.error "forced failure" }

/-- The context returned by the forced-failure run over the chain. -/
def c4ctx : ExecutionContext :=
  match (executeGraph c4Oracles chainGraph).1 with
  | Except.ok ctx => ctx
  | Except.error _ => ⟨[], [], []⟩

/-- C4: executor failures are isolated.  In general, on a well-formed
acyclic graph the run never aborts — it returns a context and attempts
every node of the computed order, whatever the executors do.  In the
concrete chain A→B→C with B's executor forced to fail: A ends `success`
with a stored output, B ends `error` with the message captured and no
output, and C is still attempted and reaches its own terminal status. -/
theorem C4_partial_failure_isolation :
    (∀ (o : Oracles) (g : Graph), WellFormed g → Acyclic g →
      ∀ order, topologicalSort g = Except.ok order →
        (∃ ctx, (executeGraph o g).1 = Except.ok ctx) ∧
        attemptedNodes (executeGraph o g).2 = order) ∧
    ((executeGraph c4Oracles chainGraph).1 = Except.ok c4ctx ∧
     getKey? c4ctx.nodeStatuses "A" = some NodeStatus.success ∧
     (getKey? c4ctx.nodeOutputs "A").isSome = true ∧
     getKey? c4ctx.nodeStatuses "B" = some NodeStatus.error ∧
     getKey? c4ctx.nodeErrors "B" = some "forced failure" ∧
     (getKey? c4ctx.nodeOutputs "B").isSome = false ∧
     "C" ∈ attemptedNodes (executeGraph c4Oracles chainGraph).2 ∧
     (getKey? c4ctx.nodeStatuses "C" = some NodeStatus.success ∨
      getKey? c4ctx.nodeStatuses "C" = some NodeStatus.error)) := by
  constructor
  · intro o g hwf hac order hord
    have hord' : Except.ok (ε := String) (kahnFinal g).result = Except.ok order := by
      rw [← hord, topologicalSort_eq, if_pos (kahnFinal_length g hwf hac)]
    have heq : (kahnFinal g).result = order := by
      injection hord'
    cases heq
    have hrun := executeGraph_run o g (detectCycles_acyclic g hac) _ hord
    constructor
    · exact ⟨_, by rw [hrun]⟩
    · have hfold := execFold_attempted o g (kahnFinal g).result
        (fun x hx => (kahnFinal_inv g hwf).resultIds x hx)
        (⟨[], [], []⟩, startTrace g (kahnFinal g).result)
      rw [hrun]
      dsimp only
      rw [attemptedNodes_append, hfold, attemptedNodes_startTrace]
      simp [attemptedNodes_cons_log, attemptedNodes_nil]
  · exact ⟨rfl, by decide, by decide, by decide, by decide, by decide, by decide,
      Or.inl (by decide)⟩

/-- Witness for C4 at the chain with B's executor forced to fail. -/
theorem C4_partial_failure_isolation_witness :
    WellFormed chainGraph ∧ Acyclic chainGraph ∧
    topologicalSort chainGraph = Except.ok ["A", "B", "C"] ∧
    ((∃ ctx, (executeGraph c4Oracles chainGraph).1 = Except.ok ctx) ∧
     attemptedNodes (executeGraph c4Oracles chainGraph).2 = ["A", "B", "C"]) :=
  ⟨chainGraph_wf, chainGraph_acyclic, rfl,
   C4_partial_failure_isolation.1 c4Oracles chainGraph chainGraph_wf chainGraph_acyclic
     ["A", "B", "C"] rfl⟩
